import Mathlib

/-!
# Microstates of d-block configurations: a shallow embedding of `microestados.cpp`

The program enumerates, for every electron count 1..10, the microstates of a
d configuration (5 orbitals with magnetic numbers 2, 1, 0, -1, -2) and writes
one text line per microstate.

Modelling conventions.

* C++ `int` values that can be negative (`electrones[j]`, `ML`, `MS`, the
  entries of `arrOnes`) are `Int`; loop counters that only count up from 0
  (`ones`, `pos`, `n`, the electron count) are `Nat`.  No value of `run`
  leaves the range -20..252, so no wrap-around is modelled there; `bin` taken
  alone can be asked for a shift that leaves `int`, which `bin` models.
* A field or array slot that the C++ code leaves indeterminate is `none`;
  reading it, indexing outside an array, or shifting by a negative amount is
  undefined behaviour and makes the embedded function return `none`.
* Loops whose trip count is not a syntactic bound (`bin`, the `do`/`while`
  over `next_permutation`) take fuel and return `none` when it runs out.
* `std::next_permutation` is library code; `next_permutation` follows the
  algorithm the C++ standard library uses for it (`is_sorted_until` and
  `upper_bound` on the reversed range, a swap and a reversal).
* The output stream is kept as structured records (`Microestado`, `Grupo`);
  `Microestado.texto` and `Grupo.texto` give the characters written.

Proof plan.  `grupoRef` describes the group of every electron count without
index loops; `grupo_eq` and `run_eq` prove that the embedded program returns
exactly that for every fuel of at least 30 rounds.  The properties of the
output are then proved on `grupoRef`, by induction on its lists or by
evaluation of the pattern table.
-/

namespace Microestados

/-! ## Constants -/

/-- Number of ways in which electrons can be arranged in 5 orbitals taking the
spin into consideration (the table `NUM_COMBINACIONES_D`). -/
def NUM_COMBINACIONES_D : List Int := [10, 45, 120, 210, 252, 210, 120, 45, 10, 1]

/-- Quantum magnetic number of each orbital. -/
def ORBITALES_D : List Int := [2, 1, 0, -1, -2]

/-- Amount of orbitals in a d configuration. -/
def NUM_ORBITALES : Nat := 5

/-! ## `struct Combinacion` -/

/-- One way of arranging electrons in the 5 orbitals.  `ML` and `ones` are
indeterminate (`none`) until the program stores into them. -/
structure Combinacion where
  electrones : List Int
  ML : Option Int
  ones : Option Nat
deriving DecidableEq

/-- The default constructor: all 5 entries of `electrones` are set to 0, `ML`
and `ones` are left indeterminate. -/
def Combinacion.nueva : Combinacion :=
  ⟨List.replicate NUM_ORBITALES 0, none, none⟩

/-- The counting loop of `setElectrones`:
`for (i = 0; i < NUM_ORBITALES; i++) if (electrones[i] == 1) ones++;`. -/
def contarUnos (electrones : List Int) : Nat :=
  (List.range NUM_ORBITALES).foldl
    (fun ones i => if electrones.getD i 0 = 1 then ones + 1 else ones) 0

/-- The method `Combinacion::setElectrones(A, B, C, D, E)`. -/
def Combinacion.setElectrones (c : Combinacion) (A B C D E : Int) : Combinacion :=
  let electrones := ((((c.electrones.set 0 A).set 1 B).set 2 C).set 3 D).set 4 E
  { c with electrones := electrones, ones := some (contarUnos electrones) }

/-! ## Pattern tables -/

/-- The function `getNumCombinaciones(n)`: the `switch` has no `default`, so for
`n` outside 1..10 the returned `x` is indeterminate (`none`). -/
def getNumCombinaciones (n : Nat) : Option Nat :=
  match n with
  | 1 | 9 | 10 => some 1
  | 2 | 3 | 7 | 8 => some 2
  | 4 | 5 | 6 => some 3
  | _ => none

/-- The statement `arrCombinacion[i].setElectrones(A, B, C, D, E)`. -/
def setEn (arr : List Combinacion) (i : Nat) (A B C D E : Int) : List Combinacion :=
  match arr.get? i with
  | some c => arr.set i (c.setElectrones A B C D E)
  | none => arr

/-- The function `setCombinaciones(arrCombinacion, n)`. -/
def setCombinaciones (arr : List Combinacion) (n : Nat) : List Combinacion :=
  match n with
  | 1 => setEn arr 0 0 0 0 0 1
  | 2 => setEn (setEn arr 0 0 0 0 1 1) 1 0 0 0 0 2
  | 3 => setEn (setEn arr 0 0 0 1 1 1) 1 0 0 0 1 2
  | 4 => setEn (setEn (setEn arr 0 0 1 1 1 1) 1 0 0 1 1 2) 2 0 0 0 2 2
  | 5 => setEn (setEn (setEn arr 0 1 1 1 1 1) 1 0 1 1 1 2) 2 0 0 1 2 2
  | 6 => setEn (setEn (setEn arr 0 1 1 1 1 2) 1 0 1 1 2 2) 2 0 0 2 2 2
  | 7 => setEn (setEn arr 0 1 1 1 2 2) 1 0 1 2 2 2
  | 8 => setEn (setEn arr 0 1 1 2 2 2) 1 0 2 2 2 2
  | 9 => setEn arr 0 1 2 2 2 2
  | 10 => setEn arr 0 2 2 2 2 2
  | _ => arr

/-! ## `bin` -/

/-- The loop of `bin`: `for (...; i > 0; i = i / 2) { arrOnes[pos] = (n & i) ? 1 : 0; pos++; }`.
A store outside `arrOnes` is undefined behaviour. -/
def binLoop : Nat → Nat → Nat → List (Option Int) → Nat → Option (List (Option Int))
  | 0, _, _, _, _ => none
  | fuel + 1, i, n, arrOnes, pos =>
    if i > 0 then
      if pos < arrOnes.length then
        binLoop fuel (i / 2) n (arrOnes.set pos (some (if n &&& i ≠ 0 then 1 else 0))) (pos + 1)
      else none
    else some arrOnes

/-- Width of `int` in bits on the platforms the program is built for. -/
def INT_BITS : Nat := 32

/-- The function `bin(n, arrOnes, ones)`.  The loop starts at `i = 1 << ones-1`.
The shift is undefined for `ones = 0` (negative count) and for `ones - 1` from
`INT_BITS` on (count not below the width).  For `ones = INT_BITS` the value
`2 ^ (INT_BITS - 1)` is not a value of `int`: it becomes the negative
`INT_MIN` (undefined before C++14), the test `i > 0` fails at once and nothing
is stored.  Otherwise `i` halves in every round, so `i + 1` rounds of fuel
always reach the exit test. -/
def bin (n : Nat) (arrOnes : List (Option Int)) (ones : Nat) : Option (List (Option Int)) :=
  if ones = 0 ∨ INT_BITS < ones then none
  else if ones = INT_BITS then some arrOnes
  else
    let i := 1 <<< (ones - 1)
    binLoop (i + 1) i n arrOnes 0

/-! ## `std::next_permutation` -/

/-- The call `std::is_sorted_until` on a range: the longest non-decreasing
prefix, and what follows it. -/
def is_sorted_until : List Int → List Int × List Int
  | [] => ([], [])
  | [a] => ([a], [])
  | a :: b :: t =>
    if b < a then ([a], b :: t)
    else
      let r := is_sorted_until (b :: t)
      (a :: r.1, r.2)

/-- The call `std::upper_bound` on a sorted range: the position of the first
element greater than `v` (the length of the range when there is none). -/
def upper_bound (s : List Int) (v : Int) : Nat :=
  (s.takeWhile (fun a => decide (a ≤ v))).length

/-- The library function `std::next_permutation(first, last)` on the whole
array, as the C++ standard describes it: scanning from the back, find the
longest non-increasing suffix; if it is the whole range, reverse the range and
return `false`; otherwise swap the element before the suffix with the last
element of the suffix greater than it, reverse the suffix and return `true`. -/
def next_permutation (xs : List Int) : List Int × Bool :=
  let r := xs.reverse
  let su := is_sorted_until r
  match su.2 with
  | [] => (r, false)
  | p :: resto =>
    let k := upper_bound su.1 p
    (resto.reverse ++ su.1.getD k p :: su.1.set k p, true)

/-! ## Output records -/

/-- One bracketed cell as `run` streams it: `"[+" << v << ']'`,
`"[-" << v << ']'` or `'[' << v << ']'`. -/
inductive Celda where
  | mas (v : Int)
  | menos (v : Int)
  | sola (v : Int)
deriving DecidableEq

/-- The two ways `run` streams the spin: `" MS: " << v` or `" MS: " << v << "/2"`. -/
inductive MSTexto where
  | entero (v : Int)
  | medios (v : Int)
deriving DecidableEq

/-- One microstate line: the array `electrones` when the line is written, the
array `arrOnes` filled by `bin` (empty in the branch without spin), the cells
streamed, the `ML` streamed, the `MS` accumulated and the way it is streamed. -/
structure Microestado where
  electrones : List Int
  arrOnes : List (Option Int)
  celdas : List Celda
  ML : Int
  MS : Int
  msTexto : MSTexto
deriving DecidableEq

/-- One round of the `do`/`while`: the array `electrones` it runs on and the
lines it writes. -/
structure Visita where
  electrones : List Int
  lineas : List Microestado
deriving DecidableEq

/-- The output for one electron count: the two header values and, for every
pattern index `i`, the rounds of its `do`/`while`. -/
structure Grupo where
  electrones : Nat
  combinaciones : Int
  recorridos : List (List Visita)
deriving DecidableEq

/-- The microstate lines of a group, in output order. -/
def Grupo.lineas (g : Grupo) : List Microestado :=
  (g.recorridos.map (fun vs => (vs.map Visita.lineas).flatten)).flatten

/-- Characters of one cell. -/
def Celda.texto : Celda → String
  | .mas v => "[+" ++ toString v ++ "]"
  | .menos v => "[-" ++ toString v ++ "]"
  | .sola v => "[" ++ toString v ++ "]"

/-- Characters of the spin field, up to and including `endl`. -/
def MSTexto.texto : MSTexto → String
  | .entero v => " MS: " ++ toString v ++ "\n"
  | .medios v => " MS: " ++ toString v ++ "/2\n"

/-- Characters of one microstate line. -/
def Microestado.texto (m : Microestado) : String :=
  String.join (m.celdas.map Celda.texto) ++ " ML: " ++ toString m.ML ++ m.msTexto.texto

/-- Characters of one group: two header lines, the microstate lines, a blank line. -/
def Grupo.texto (g : Grupo) : String :=
  "Numero de electrones: " ++ toString g.electrones ++ "\n" ++
  "Numero de combinaciones: " ++ toString g.combinaciones ++ "\n" ++
  String.join (g.lineas.map Microestado.texto) ++ "\n"

/-! ## `run` -/

/-- Body of `for (j = 0; j < NUM_ORBITALES; j++)` in the branch `ones > 0`.
The state is the cells written so far, `ML` and the local counter `ones`. -/
def celdaEspin (electrones : List Int) (arrOnes : List (Option Int))
    (st : List Celda × Int × Nat) (j : Nat) : Option (List Celda × Int × Nat) := do
  let e ← electrones[j]?
  let o ← ORBITALES_D[j]?
  if e = 1 then
    let a ← (arrOnes[st.2.2]?).join
    let c := if a = 1 then Celda.mas e else Celda.menos e
    pure (st.1 ++ [c], st.2.1 + e * o, st.2.2 + 1)
  else
    pure (st.1 ++ [Celda.sola e], st.2.1 + e * o, st.2.2)

/-- Body of `for (iter = 0; iter < ones; iter++) (arrOnes[iter] == 1) ? MS++ : MS--;`. -/
def espinPaso (arrOnes : List (Option Int)) (MS : Int) (iter : Nat) : Option Int := do
  let a ← (arrOnes[iter]?).join
  pure (if a = 1 then MS + 1 else MS - 1)

/-- Body of `for (n = 0; n < pow(2, ones); n++)` after the call of `bin`: the
two inner loops, the store into the field `ML` and the line written. -/
def lineaCon (c : Combinacion) (ones : Nat) (arrOnes : List (Option Int)) :
    Option (Microestado × Combinacion) := do
  let r ← (List.range NUM_ORBITALES).foldlM (celdaEspin c.electrones arrOnes) ([], 0, 0)
  let MS ← (List.range ones).foldlM (espinPaso arrOnes) 0
  let c1 := { c with ML := some r.2.1 }
  let ML ← c1.ML
  let t := if MS.tmod 2 = 0 then MSTexto.entero (MS.tdiv 2) else MSTexto.medios MS
  pure (⟨c.electrones, arrOnes, r.1, ML, MS, t⟩, c1)

/-- Body of `for (n = 0; n < pow(2, ones); n++)`: `int arrOnes[ones]` starts
indeterminate, `bin(n, arrOnes, ones)` fills it, then the line is written. -/
def lineaEspin (c : Combinacion) (ones n : Nat) : Option (Microestado × Combinacion) := do
  let arrOnes ← bin n (List.replicate ones none) ones
  lineaCon c ones arrOnes

/-- Body of `for (j = 0; j < NUM_ORBITALES; j++)` in the branch without spin. -/
def celdaSola (electrones : List Int) (st : List Celda × Int) (j : Nat) :
    Option (List Celda × Int) := do
  let e ← electrones[j]?
  let o ← ORBITALES_D[j]?
  pure (st.1 ++ [Celda.sola e], st.2 + e * o)

/-- The line of the branch `else` (no orbital holds 1 electron). -/
def lineaSola (c : Combinacion) : Option (Microestado × Combinacion) := do
  let MS : Int := 0
  let r ← (List.range NUM_ORBITALES).foldlM (celdaSola c.electrones) ([], 0)
  let c1 := { c with ML := some r.2 }
  let ML ← c1.ML
  pure (⟨c.electrones, [], r.1, ML, MS, MSTexto.entero MS⟩, c1)

/-- Body of the `do`/`while`: `if (arrCombinacion[i].ones > 0) ... else ...`. -/
def cuerpo (c : Combinacion) : Option (List Microestado × Combinacion) := do
  let ones ← c.ones
  if ones > 0 then
    (List.range (2 ^ ones)).foldlM
      (fun (st : List Microestado × Combinacion) n => do
        let r ← lineaEspin st.2 ones n
        pure (st.1 ++ [r.1], r.2))
      ([], c)
  else do
    let r ← lineaSola c
    pure ([r.1], r.2)

/-- The loop `do { ... } while (next_permutation(electrones, electrones + NUM_ORBITALES));`
on one pattern, with fuel counting the rounds. -/
def doWhile : Nat → Combinacion → Option (List Visita × Combinacion)
  | 0, _ => none
  | fuel + 1, c => do
    let r ← cuerpo c
    let np := next_permutation r.2.electrones
    let c2 := { r.2 with electrones := np.1 }
    if np.2 then
      let s ← doWhile fuel c2
      pure (⟨c.electrones, r.1⟩ :: s.1, s.2)
    else
      pure ([⟨c.electrones, r.1⟩], c2)

/-- Body of `for (i = 0; i < posiblesCombinaciones; i++)`. -/
def patronPaso (fuel : Nat) (st : List (List Visita) × List Combinacion) (i : Nat) :
    Option (List (List Visita) × List Combinacion) := do
  let c ← st.2[i]?
  let r ← doWhile fuel c
  pure (st.1 ++ [r.1], st.2.set i r.2)

/-- Body of `for (electrones = 1; electrones <= 10; electrones++)` in `run`:
the group written for one electron count. -/
def grupo (fuel : Nat) (electrones : Nat) : Option Grupo := do
  let total ← NUM_COMBINACIONES_D[electrones - 1]?
  let posiblesCombinaciones ← getNumCombinaciones electrones
  let arrCombinacion := setCombinaciones (List.replicate 3 Combinacion.nueva) electrones
  let r ← (List.range posiblesCombinaciones).foldlM (patronPaso fuel) ([], arrCombinacion)
  pure ⟨electrones, total, r.1⟩

/-- The function `run`: the groups for 1, 2, ..., 10 electrons. -/
def run (fuel : Nat) : Option (List Grupo) :=
  (List.range' 1 10).mapM (grupo fuel)

/-! ## A closed description of the output

The definitions of this section are not part of the program: they describe the
output of `grupo` without loops over indices, and `grupo_eq` below proves that
`grupo` produces exactly this. -/

/-- All contents that `bin` gives an array of `k` slots, in the order of the
codes 0, 1, ..., 2^k - 1. -/
def codigosRef : Nat → List (List (Option Int))
  | 0 => [[]]
  | k + 1 =>
    (codigosRef k).map (fun b => some 0 :: b) ++ (codigosRef k).map (fun b => some 1 :: b)

/-- The cells of an occupation whose singly occupied orbitals take their signs,
left to right, from `bits`. -/
def celdasRef : List Int → List (Option Int) → List Celda
  | [], _ => []
  | e :: es, bits =>
    if e = 1 then
      match bits with
      | b :: bs => (if b = some 1 then Celda.mas e else Celda.menos e) :: celdasRef es bs
      | [] => []
    else Celda.sola e :: celdasRef es bits

/-- Sum over the orbitals of electron count times magnetic number. -/
def mlRef (e : List Int) : Int :=
  (List.zipWith (fun a b => a * b) e ORBITALES_D).sum

/-- Number of slots holding 1 minus the number of the other slots. -/
def msRef (bits : List (Option Int)) : Int :=
  (bits.map (fun b => if b = some 1 then (1 : Int) else -1)).sum

/-- The line for an occupation and the contents of `arrOnes`. -/
def lineaRef (e : List Int) (bits : List (Option Int)) : Microestado :=
  ⟨e, bits, celdasRef e bits, mlRef e, msRef bits,
    if (msRef bits).tmod 2 = 0 then MSTexto.entero ((msRef bits).tdiv 2)
    else MSTexto.medios (msRef bits)⟩

/-- The lists of the given length with `z` entries 0, `u` entries 1 and `d`
entries 2, in lexicographic order. -/
def arreglosDe : Nat → Nat → Nat → Nat → List (List Int)
  | 0, z, u, d => if z = 0 ∧ u = 0 ∧ d = 0 then [[]] else []
  | len + 1, z, u, d =>
    (if 0 < z then (arreglosDe len (z - 1) u d).map (fun t => 0 :: t) else []) ++
    ((if 0 < u then (arreglosDe len z (u - 1) d).map (fun t => 1 :: t) else []) ++
     (if 0 < d then (arreglosDe len z u (d - 1)).map (fun t => 2 :: t) else []))

/-- The rearrangements of a pattern, in lexicographic order. -/
def arreglos (p : List Int) : List (List Int) :=
  arreglosDe p.length (p.count 0) (p.count 1) (p.count 2)

/-- Whether every arrangement of the list is turned into the following one by
`next_permutation`, which returns `true`, and `next_permutation` returns
`false` on the last one. -/
def cadena : List (List Int) → Bool
  | [] => false
  | [e] => !(next_permutation e).2
  | e :: e' :: es => decide (next_permutation e = (e', true)) && cadena (e' :: es)

/-- The round of the `do`/`while` on the arrangement `e` of a pattern with `k`
singly occupied orbitals. -/
def visitaRef (k : Nat) (e : List Int) : Visita :=
  ⟨e, (codigosRef k).map (lineaRef e)⟩

/-- The rounds of the `do`/`while` on one pattern. -/
def recorridoRef (c : Combinacion) : List Visita :=
  (arreglos c.electrones).map (visitaRef (c.ones.getD 0))

/-- The array `arrCombinacion` after `setCombinaciones`. -/
def patrones (n : Nat) : List Combinacion :=
  setCombinaciones (List.replicate 3 Combinacion.nueva) n

/-- The patterns that `run` works on for `n` electrons: the first
`getNumCombinaciones(n)` entries of the array. -/
def patronesDe (n : Nat) : List Combinacion :=
  (patrones n).take ((getNumCombinaciones n).getD 0)

/-- The group for `n` electrons. -/
def grupoRef (n : Nat) : Grupo :=
  ⟨n, NUM_COMBINACIONES_D.getD (n - 1) 0, (patronesDe n).map recorridoRef⟩

/-! ## Reading the output

Functions that read a written line back, used to state the properties. -/

/-- The electron count shown in a cell. -/
def Celda.valor : Celda → Int
  | .mas v => v
  | .menos v => v
  | .sola v => v

/-- The sign shown in a cell: `true` for `+`, `false` for `-`, none for a cell
without sign. -/
def Celda.signo : Celda → Option Bool
  | .mas _ => some true
  | .menos _ => some false
  | .sola _ => none

/-- The spin shown in a cell in half units: +1 for `+`, -1 for `-`, 0 for a
cell without sign. -/
def Celda.espin : Celda → Int
  | .mas _ => 1
  | .menos _ => -1
  | .sola _ => 0

/-- The occupation shown by a line: the electron counts of its cells. -/
def Microestado.ocupacion (m : Microestado) : List Int :=
  m.celdas.map Celda.valor

/-- The signs shown by a line, left to right. -/
def Microestado.signos (m : Microestado) : List Bool :=
  m.celdas.filterMap Celda.signo

/-- The group `g` is what `run` writes for `n` electrons: `run` returns, and
`g` is its group number `n`, the one whose header shows `n`. -/
def GrupoDe (fuel n : Nat) (g : Grupo) : Prop :=
  ∃ gs, run fuel = some gs ∧ gs[n - 1]? = some g ∧ g.electrones = n

/-- Entry `i` of a fresh array `arrCombinacion[3]` after `setCombinaciones` for
`n` electrons: the pattern with index `i`. -/
def patron (n i : Nat) : Option Combinacion :=
  (patrones n)[i]?

/-- Whether a list of numbers is strictly increasing. -/
def creciente : List Nat → Bool
  | [] => true
  | [_] => true
  | a :: b :: t => decide (a < b) && creciente (b :: t)

/-- The occupation of the holes: every orbital holds 2 minus its electrons. -/
def hueco (e : List Int) : List Int :=
  e.map (fun x => 2 - x)

/-- The sign array with every sign flipped. -/
def voltear (arr : List (Option Int)) : List (Option Int) :=
  arr.map (fun b => if b = some 1 then some 0 else some 1)

/-- An occupation of `n` electrons: 5 entries 0, 1 or 2 that sum to `n`. -/
def Valida (n : Nat) (e : List Int) : Prop :=
  e.length = 5 ∧ (∀ x ∈ e, x = 0 ∨ x = 1 ∨ x = 2) ∧ e.sum = (n : Int)

/-! ## The loops of one line -/

set_option maxRecDepth 1000000

theorem celdas_loop (e : List Int) (arr : List (Option Int)) (harr : ∀ b ∈ arr, b ≠ none)
    (he : e.length ≤ 5) :
    ∀ (len i : Nat) (cs : List Celda) (ML : Int) (k : Nat), i + len = e.length →
      (e.drop i).count 1 + k ≤ arr.length →
      (List.range' i len).foldlM (celdaEspin e arr) (cs, ML, k) =
        some (cs ++ celdasRef (e.drop i) (arr.drop k),
          ML + (List.zipWith (fun a b => a * b) (e.drop i) (ORBITALES_D.drop i)).sum,
          k + (e.drop i).count 1) := by
  intro len
  induction len with
  | zero =>
    intro i cs ML k hi _
    have h0 : e.drop i = [] := List.drop_eq_nil_of_le (by omega)
    simp [h0, celdasRef]
  | succ len ih =>
    intro i cs ML k hi hk
    have hie : i < e.length := by omega
    have hio : i < ORBITALES_D.length := by
      have : ORBITALES_D.length = 5 := rfl
      omega
    have hx : e.drop i = e[i] :: e.drop (i + 1) := List.drop_eq_getElem_cons hie
    have ho : ORBITALES_D.drop i = ORBITALES_D[i] :: ORBITALES_D.drop (i + 1) :=
      List.drop_eq_getElem_cons hio
    rw [List.range'_succ, List.foldlM_cons]
    rw [hx] at hk
    by_cases h1 : e[i] = 1
    · have hka : k < arr.length := by
        rw [h1, List.count_cons_self] at hk
        omega
      have hb : arr.drop k = arr[k] :: arr.drop (k + 1) := List.drop_eq_getElem_cons hka
      obtain ⟨a, ha⟩ : ∃ a, arr[k] = some a :=
        Option.ne_none_iff_exists'.mp (harr _ (List.getElem_mem hka))
      have hstep : celdaEspin e arr (cs, ML, k) i =
          some (cs ++ [if a = 1 then Celda.mas e[i] else Celda.menos e[i]],
            ML + e[i] * ORBITALES_D[i], k + 1) := by
        simp [celdaEspin, List.getElem?_eq_getElem hie, List.getElem?_eq_getElem hio,
          List.getElem?_eq_getElem hka, h1, ha]
      rw [hstep]
      simp only [Option.bind_eq_bind, Option.some_bind]
      rw [ih (i + 1) _ _ (k + 1) (by omega) (by
        rw [h1, List.count_cons_self] at hk
        omega)]
      rw [hx, ho, hb]
      simp [-List.getElem_cons_drop, celdasRef, h1, ha, List.count_cons_self]
      omega
    · have hstep : celdaEspin e arr (cs, ML, k) i =
          some (cs ++ [Celda.sola e[i]], ML + e[i] * ORBITALES_D[i], k) := by
        simp [celdaEspin, List.getElem?_eq_getElem hie, List.getElem?_eq_getElem hio, h1]
      rw [hstep]
      simp only [Option.bind_eq_bind, Option.some_bind]
      have hc : (e[i] :: e.drop (i + 1)).count 1 = (e.drop (i + 1)).count 1 := by
        rw [List.count_cons_of_ne (Ne.symm h1)]
      rw [ih (i + 1) _ _ k (by omega) (by omega)]
      rw [hx, ho, hc]
      simp [-List.getElem_cons_drop, celdasRef, h1]
      omega

theorem espin_loop (arr : List (Option Int)) (harr : ∀ b ∈ arr, b ≠ none) :
    ∀ (len i : Nat) (MS : Int), i + len = arr.length →
      (List.range' i len).foldlM (espinPaso arr) MS = some (MS + msRef (arr.drop i)) := by
  intro len
  induction len with
  | zero =>
    intro i MS hi
    have h0 : arr.drop i = [] := List.drop_eq_nil_of_le (by omega)
    simp [h0, msRef]
  | succ len ih =>
    intro i MS hi
    have hia : i < arr.length := by omega
    have hb : arr.drop i = arr[i] :: arr.drop (i + 1) := List.drop_eq_getElem_cons hia
    obtain ⟨a, ha⟩ : ∃ a, arr[i] = some a :=
      Option.ne_none_iff_exists'.mp (harr _ (List.getElem_mem hia))
    have hstep : espinPaso arr MS i = some (if a = 1 then MS + 1 else MS - 1) := by
      simp [espinPaso, List.getElem?_eq_getElem hia, ha]
    rw [List.range'_succ, List.foldlM_cons, hstep]
    simp only [Option.bind_eq_bind, Option.some_bind]
    rw [ih (i + 1) _ (by omega), hb]
    simp only [msRef, List.map_cons, List.sum_cons, ha, Option.some.injEq]
    split <;> simp <;> omega

theorem sola_loop (e : List Int) (he : e.length ≤ 5) :
    ∀ (len i : Nat) (cs : List Celda) (ML : Int), i + len = e.length →
      (e.drop i).count 1 = 0 →
      (List.range' i len).foldlM (celdaSola e) (cs, ML) =
        some (cs ++ celdasRef (e.drop i) [],
          ML + (List.zipWith (fun a b => a * b) (e.drop i) (ORBITALES_D.drop i)).sum) := by
  intro len
  induction len with
  | zero =>
    intro i cs ML hi _
    have h0 : e.drop i = [] := List.drop_eq_nil_of_le (by omega)
    simp [h0, celdasRef]
  | succ len ih =>
    intro i cs ML hi hk
    have hie : i < e.length := by omega
    have hio : i < ORBITALES_D.length := by
      have : ORBITALES_D.length = 5 := rfl
      omega
    have hx : e.drop i = e[i] :: e.drop (i + 1) := List.drop_eq_getElem_cons hie
    have ho : ORBITALES_D.drop i = ORBITALES_D[i] :: ORBITALES_D.drop (i + 1) :=
      List.drop_eq_getElem_cons hio
    rw [hx] at hk
    have h1 : e[i] ≠ 1 := by
      intro h
      rw [h, List.count_cons_self] at hk
      omega
    have hc : (e.drop (i + 1)).count 1 = 0 := by
      rw [List.count_cons_of_ne (Ne.symm h1)] at hk
      exact hk
    have hstep : celdaSola e (cs, ML) i =
        some (cs ++ [Celda.sola e[i]], ML + e[i] * ORBITALES_D[i]) := by
      simp [celdaSola, List.getElem?_eq_getElem hie, List.getElem?_eq_getElem hio]
    rw [List.range'_succ, List.foldlM_cons, hstep]
    simp only [Option.bind_eq_bind, Option.some_bind]
    rw [ih (i + 1) _ _ (by omega) hc, hx, ho]
    simp [-List.getElem_cons_drop, celdasRef, h1]
    omega

theorem mlRef_eq (e : List Int) :
    mlRef e = (List.zipWith (fun a b => a * b) (e.drop 0) (ORBITALES_D.drop 0)).sum := by
  simp [mlRef]

/-- The two inner loops and the line of the branch with spin, for any array
`arrOnes` that is filled and as long as the stored `ones`. -/
theorem lineaCon_eq (c : Combinacion) (arr : List (Option Int))
    (hlen : c.electrones.length = 5) (harr : ∀ b ∈ arr, b ≠ none)
    (hk : c.electrones.count 1 = arr.length) :
    lineaCon c arr.length arr =
      some (lineaRef c.electrones arr, { c with ML := some (mlRef c.electrones) }) := by
  have h1 := celdas_loop c.electrones arr harr (by omega) 5 0 [] 0 0 (by omega)
    (by simp [hk])
  have h2 := espin_loop arr harr arr.length 0 0 (by omega)
  simp only [lineaCon, NUM_ORBITALES, List.range_eq_range', h1, h2, Option.bind_eq_bind,
    Option.some_bind, lineaRef, mlRef_eq]
  simp

/-- The loop and the line of the branch without spin. -/
theorem lineaSola_eq (c : Combinacion) (hlen : c.electrones.length = 5)
    (hk : c.electrones.count 1 = 0) :
    lineaSola c =
      some (lineaRef c.electrones [], { c with ML := some (mlRef c.electrones) }) := by
  have h1 := sola_loop c.electrones (by omega) 5 0 [] 0 (by omega) (by simpa using hk)
  simp only [lineaSola, NUM_ORBITALES, List.range_eq_range', h1, Option.bind_eq_bind,
    Option.some_bind, lineaRef, mlRef_eq]
  simp [msRef]

/-! ## The body of the `do`/`while` -/

theorem codigosRef_length (k : Nat) : (codigosRef k).length = 2 ^ k := by
  induction k with
  | zero => rfl
  | succ k ih => simp [codigosRef, ih, Nat.pow_succ]; omega

theorem codigosRef_mem (k : Nat) :
    ∀ arr ∈ codigosRef k, arr.length = k ∧ ∀ b ∈ arr, b ≠ none := by
  induction k with
  | zero => simp [codigosRef]
  | succ k ih =>
    intro arr harr
    simp only [codigosRef, List.mem_append, List.mem_map] at harr
    rcases harr with ⟨b, hb, rfl⟩ | ⟨b, hb, rfl⟩ <;>
      exact ⟨by simp [(ih b hb).1], by
        intro x hx
        rcases List.mem_cons.mp hx with rfl | hx
        · simp
        · exact (ih b hb).2 x hx⟩

theorem map_getD_range {α : Type} (l : List α) (d : α) :
    (List.range l.length).map (fun n => l.getD n d) = l := by
  apply List.ext_getElem
  · simp
  · intro n h1 h2
    simp [List.getD_eq_getElem?_getD, List.getElem?_eq_getElem h2]

/-- For arrays of at most 5 slots, `bin` fills the array with the entry of
`codigosRef` at the position of the code. -/
theorem bin_eq (k n : Nat) (h1 : 1 ≤ k) (h5 : k ≤ 5) (hn : n < 2 ^ k) :
    bin n (List.replicate k none) k = some ((codigosRef k).getD n []) := by
  have h : ∀ k ∈ List.range' 1 5, ∀ n ∈ List.range (2 ^ k),
      bin n (List.replicate k none) k = some ((codigosRef k).getD n []) := by decide!
  exact h k (List.mem_range'_1.mpr ⟨h1, by omega⟩) n (List.mem_range.mpr hn)

theorem fold_lineas (I : Combinacion → Prop)
    (paso : Combinacion → Nat → Option (Microestado × Combinacion)) (G : Nat → Microestado) :
    ∀ (l : List Nat), (∀ n ∈ l, ∀ c, I c → ∃ cf, paso c n = some (G n, cf) ∧ I cf) →
    ∀ (acc : List Microestado) (c : Combinacion), I c →
      ∃ cf, l.foldlM (fun (st : List Microestado × Combinacion) n => do
          let r ← paso st.2 n
          pure (st.1 ++ [r.1], r.2)) (acc, c) = some (acc ++ l.map G, cf) ∧ I cf := by
  intro l
  induction l with
  | nil => intro _ acc c hc; exact ⟨c, by simp, hc⟩
  | cons n l ih =>
    intro h acc c hc
    obtain ⟨c1, h1, hc1⟩ := h n (List.mem_cons_self _ _) c hc
    obtain ⟨cf, h2, hcf⟩ := ih (fun m hm => h m (List.mem_cons_of_mem _ hm)) (acc ++ [G n]) c1 hc1
    refine ⟨cf, ?_, hcf⟩
    rw [List.foldlM_cons]
    simp only [h1, Option.bind_eq_bind, Option.some_bind, Option.pure_def]
    simpa using h2

/-- The body of the `do`/`while` writes, for an arrangement with `k` entries 1,
the lines of all sign arrays of `k` slots in the order of their codes. -/
theorem cuerpo_eq (c : Combinacion) (k : Nat) (hlen : c.electrones.length = 5)
    (hk : c.ones = some k) (hc : c.electrones.count 1 = k) :
    ∃ cf, cuerpo c = some ((codigosRef k).map (lineaRef c.electrones), cf) ∧
      cf.electrones = c.electrones ∧ cf.ones = some k := by
  have hk5 : k ≤ 5 := by
    rw [← hc, ← hlen]
    exact List.count_le_length _ _
  by_cases h0 : k = 0
  · subst h0
    refine ⟨{ c with ML := some (mlRef c.electrones) }, ?_, rfl, hk⟩
    simp [cuerpo, hk, lineaSola_eq c hlen hc, codigosRef]
  · have hpos : 0 < k := Nat.pos_of_ne_zero h0
    obtain ⟨cf, hf, hcf⟩ := fold_lineas
      (fun c' => c'.electrones = c.electrones ∧ c'.ones = some k)
      (fun c' n => lineaEspin c' k n)
      (fun n => lineaRef c.electrones ((codigosRef k).getD n []))
      (List.range (2 ^ k))
      (by
        intro n hn c' hc'
        have hn' : n < 2 ^ k := List.mem_range.mp hn
        have hm : (codigosRef k).getD n [] ∈ codigosRef k := by
          rw [List.getD_eq_getElem?_getD,
            List.getElem?_eq_getElem (by rw [codigosRef_length]; exact hn')]
          exact List.getElem_mem _
        obtain ⟨hl, hs⟩ := codigosRef_mem k _ hm
        refine ⟨{ c' with ML := some (mlRef c'.electrones) }, ?_, hc'.1, hc'.2⟩
        have := lineaCon_eq c' ((codigosRef k).getD n []) (by rw [hc'.1]; exact hlen) hs
          (by rw [hc'.1, hc, hl])
        rw [hl] at this
        simp only [lineaEspin, bin_eq k n hpos hk5 hn', Option.bind_eq_bind, Option.some_bind]
        rw [this, hc'.1])
      [] c ⟨rfl, hk⟩
    refine ⟨cf, ?_, hcf.1, hcf.2⟩
    have hmap : (List.range (2 ^ k)).map (fun n => lineaRef c.electrones ((codigosRef k).getD n []))
        = (codigosRef k).map (lineaRef c.electrones) := by
      have := map_getD_range (codigosRef k) []
      rw [codigosRef_length] at this
      conv_rhs => rw [← this]
      simp [List.map_map, Function.comp_def]
    simp only [cuerpo, hk, Option.bind_eq_bind, Option.some_bind, hpos, if_true]
    rw [← hmap]
    simpa using hf

/-! ## The `do`/`while` and the loop over the patterns -/

theorem arreglosDe_mem : ∀ (len z u d : Nat) (x : List Int), x ∈ arreglosDe len z u d →
    x.length = len ∧ x.count 0 = z ∧ x.count 1 = u ∧ x.count 2 = d := by
  intro len
  induction len with
  | zero =>
    intro z u d x hx
    simp only [arreglosDe] at hx
    split at hx
    · rename_i h
      obtain ⟨rfl, rfl, rfl⟩ := h
      simp at hx
      subst hx
      simp
    · simp at hx
  | succ len ih =>
    intro z u d x hx
    simp only [arreglosDe, List.mem_append] at hx
    rcases hx with hx | hx | hx
    · split at hx
      · rename_i hz
        obtain ⟨t, ht, rfl⟩ := List.mem_map.mp hx
        obtain ⟨h1, h2, h3, h4⟩ := ih _ _ _ t ht
        refine ⟨by simp [h1], ?_, ?_, ?_⟩
        · rw [List.count_cons_self, h2]; omega
        · rw [List.count_cons_of_ne (by decide), h3]
        · rw [List.count_cons_of_ne (by decide), h4]
      · simp at hx
    · split at hx
      · rename_i hz
        obtain ⟨t, ht, rfl⟩ := List.mem_map.mp hx
        obtain ⟨h1, h2, h3, h4⟩ := ih _ _ _ t ht
        refine ⟨by simp [h1], ?_, ?_, ?_⟩
        · rw [List.count_cons_of_ne (by decide), h2]
        · rw [List.count_cons_self, h3]; omega
        · rw [List.count_cons_of_ne (by decide), h4]
      · simp at hx
    · split at hx
      · rename_i hz
        obtain ⟨t, ht, rfl⟩ := List.mem_map.mp hx
        obtain ⟨h1, h2, h3, h4⟩ := ih _ _ _ t ht
        refine ⟨by simp [h1], ?_, ?_, ?_⟩
        · rw [List.count_cons_of_ne (by decide), h2]
        · rw [List.count_cons_of_ne (by decide), h3]
        · rw [List.count_cons_self, h4]; omega
      · simp at hx

/-- The `do`/`while` on a pattern whose arrangements `e :: es` are chained by
`next_permutation` makes one round per arrangement, given fuel for them. -/
theorem doWhile_eq (k : Nat) :
    ∀ (es : List (List Int)) (e : List Int), cadena (e :: es) = true →
      (∀ x ∈ e :: es, x.length = 5 ∧ x.count 1 = k) →
      ∀ (fuel : Nat) (c : Combinacion), es.length < fuel → c.electrones = e →
        c.ones = some k →
        ∃ cf, doWhile fuel c = some ((e :: es).map (visitaRef k), cf) := by
  intro es
  induction es with
  | nil =>
    intro e hcad hx fuel c hf he hk
    obtain ⟨f, rfl⟩ : ∃ f, fuel = f + 1 := ⟨fuel - 1, by omega⟩
    obtain ⟨hl, hc⟩ := hx e (List.mem_cons_self _ _)
    obtain ⟨c1, h1, he1, _⟩ := cuerpo_eq c k (by rw [he]; exact hl) hk (by rw [he]; exact hc)
    have hnp : (next_permutation e).2 = false := by simpa [cadena] using hcad
    refine ⟨{ c1 with electrones := (next_permutation c1.electrones).1 }, ?_⟩
    simp only [doWhile, h1, Option.bind_eq_bind, Option.some_bind]
    rw [he1, he, hnp]
    simp [visitaRef]
  | cons e' es ih =>
    intro e hcad hx fuel c hf he hk
    obtain ⟨f, rfl⟩ : ∃ f, fuel = f + 1 := ⟨fuel - 1, by omega⟩
    obtain ⟨hl, hc⟩ := hx e (List.mem_cons_self _ _)
    obtain ⟨c1, h1, he1, hk1⟩ := cuerpo_eq c k (by rw [he]; exact hl) hk (by rw [he]; exact hc)
    simp only [cadena, Bool.and_eq_true, decide_eq_true_eq] at hcad
    obtain ⟨cf, h2⟩ := ih e' hcad.2 (fun x h => hx x (List.mem_cons_of_mem _ h)) f
      { c1 with electrones := (next_permutation c1.electrones).1 }
      (by simp at hf; omega) (by simp [he1, he, hcad.1]) hk1
    refine ⟨cf, ?_⟩
    simp only [doWhile, h1, Option.bind_eq_bind, Option.some_bind]
    rw [he1, he, hcad.1] at h2 ⊢
    simp only [if_true, h2, Option.some_bind]
    simp [visitaRef, he]

theorem patron_fold (fuel : Nat) (R : Combinacion → List Visita) :
    ∀ (l : List Nat) (acc : List (List Visita)) (arr : List Combinacion), l.Nodup →
      (∀ i ∈ l, ∃ c, arr[i]? = some c ∧ ∃ cf, doWhile fuel c = some (R c, cf)) →
      ∃ arr', l.foldlM (patronPaso fuel) (acc, arr) =
        some (acc ++ l.filterMap (fun i => (arr[i]?).map R), arr') := by
  intro l
  induction l with
  | nil => intro acc arr _ _; exact ⟨arr, by simp⟩
  | cons i l ih =>
    intro acc arr hnd h
    obtain ⟨c, hc, cf, hcf⟩ := h i (List.mem_cons_self _ _)
    obtain ⟨hi, hnd'⟩ := List.nodup_cons.mp hnd
    have hne : ∀ j ∈ l, (arr.set i cf)[j]? = arr[j]? := by
      intro j hj
      exact List.getElem?_set_ne (by rintro rfl; exact hi hj)
    obtain ⟨arr', h'⟩ := ih (acc ++ [R c]) (arr.set i cf) hnd' (by
      intro j hj
      rw [hne j hj]
      exact h j (List.mem_cons_of_mem _ hj))
    refine ⟨arr', ?_⟩
    rw [List.foldlM_cons]
    simp only [patronPaso, hc, hcf, Option.bind_eq_bind, Option.some_bind, Option.pure_def]
    rw [h']
    have hfm : l.filterMap (fun j => ((arr.set i cf)[j]?).map R)
        = l.filterMap (fun j => (arr[j]?).map R) :=
      List.filterMap_congr (fun j hj => by rw [hne j hj])
    simp [hfm, hc]

/-! ## The groups of `run` -/

theorem creciente_lt : ∀ (t : List Nat) (a : Nat), creciente (a :: t) = true →
    ∀ x ∈ t, a < x := by
  intro t
  induction t with
  | nil => intro a _ x hx; simp at hx
  | cons b t ih =>
    intro a h x hx
    simp only [creciente, Bool.and_eq_true, decide_eq_true_eq] at h
    rcases List.mem_cons.mp hx with rfl | hx
    · exact h.1
    · exact Nat.lt_trans h.1 (ih b h.2 x hx)

theorem creciente_nodup : ∀ (l : List Nat), creciente l = true → l.Nodup := by
  intro l
  induction l with
  | nil => intro _; exact List.nodup_nil
  | cons a t ih =>
    intro h
    refine List.nodup_cons.mpr ⟨fun ha => Nat.lt_irrefl a (creciente_lt t a h a ha), ih ?_⟩
    cases t with
    | nil => rfl
    | cons b t =>
      simp only [creciente, Bool.and_eq_true, decide_eq_true_eq] at h
      exact h.2

theorem filterMap_take {α β : Type} (R : α → β) (arr : List α) :
    ∀ p : Nat, (List.range p).filterMap (fun i => (arr[i]?).map R) = (arr.take p).map R := by
  intro p
  induction p with
  | zero => simp
  | succ p ih =>
    rw [List.range_succ, List.filterMap_append, ih, List.take_succ, List.map_append]
    congr 1
    cases h : arr[p]? <;> simp [h]

/-- Evaluation of the pattern table.  For every electron count the patterns
that `run` works on are as many as `getNumCombinaciones` says and have
increasing numbers of entries 2; every pattern has 5 entries 0, 1, 2 that sum
to the electron count, its `ones` stores the number of entries 1, and its
rearrangements in lexicographic order start with the pattern as written, are
at most 30, are chained by `next_permutation`, and their number times the
factorials of the multiplicities is 5!. -/
theorem patrones_bien : ∀ n ∈ List.range' 1 10,
    (getNumCombinaciones n).isSome = true ∧
    (patronesDe n).length = (getNumCombinaciones n).getD 0 ∧
    creciente ((patronesDe n).map (fun c => c.electrones.count 2)) = true ∧
    ∀ c ∈ patronesDe n,
      c.electrones.length = 5 ∧ (∀ x ∈ c.electrones, x = 0 ∨ x = 1 ∨ x = 2) ∧
      c.ones = some (c.electrones.count 1) ∧
      c.electrones.count 1 + 2 * c.electrones.count 2 = n ∧
      (arreglos c.electrones).head? = some c.electrones ∧
      (arreglos c.electrones).length ≤ 30 ∧
      cadena (arreglos c.electrones) = true ∧
      (arreglos c.electrones).length *
        (Nat.factorial (c.electrones.count 0) * Nat.factorial (c.electrones.count 1) *
          Nat.factorial (c.electrones.count 2)) = Nat.factorial 5 := by
  decide!

/-- Evaluation of the pattern table: for every number `u` of entries 1 and `d`
of entries 2 that 5 orbitals allow, some pattern of `u + 2 * d` electrons has
them. -/
theorem patrones_completos : ∀ u ∈ List.range 6, ∀ d ∈ List.range 6, u + d ≤ 5 →
    1 ≤ u + 2 * d →
    ∃ c ∈ patronesDe (u + 2 * d), c.electrones.count 1 = u ∧ c.electrones.count 2 = d := by
  decide!

theorem rango (n : Nat) (h1 : 1 ≤ n) (h10 : n ≤ 10) : n ∈ List.range' 1 10 :=
  List.mem_range'_1.mpr ⟨h1, by omega⟩

/-- The pattern with index `i` is the entry `i` of the patterns `run` works on. -/
theorem patron_iff (n i : Nat) (c : Combinacion)
    (hi : i < (getNumCombinaciones n).getD 0) :
    patron n i = some c ↔ (patronesDe n)[i]? = some c := by
  rw [patron, patronesDe, List.getElem?_take_of_lt hi]

/-- For 1 to 10 electrons and fuel for 30 rounds of each `do`/`while`, `grupo`
returns the group described by `grupoRef`. -/
theorem grupo_eq (fuel n : Nat) (hf : 30 ≤ fuel) (h1 : 1 ≤ n) (h10 : n ≤ 10) :
    grupo fuel n = some (grupoRef n) := by
  obtain ⟨hsome, hlen, _, hpat⟩ := patrones_bien n (rango n h1 h10)
  have htot : NUM_COMBINACIONES_D[n - 1]? = some (NUM_COMBINACIONES_D.getD (n - 1) 0) := by
    have hlt : n - 1 < NUM_COMBINACIONES_D.length := by
      have : NUM_COMBINACIONES_D.length = 10 := rfl
      omega
    simp [List.getD_eq_getElem?_getD, List.getElem?_eq_getElem hlt]
  obtain ⟨p, hp⟩ := Option.isSome_iff_exists.mp hsome
  rw [hp, Option.getD_some] at hlen
  obtain ⟨arr', h⟩ := patron_fold fuel recorridoRef (List.range p) [] (patrones n)
    (List.nodup_range p) (by
      intro i hi
      have hip : i < (patronesDe n).length := by rw [hlen]; exact List.mem_range.mp hi
      have hci : (patrones n)[i]? = some (patronesDe n)[i] := by
        rw [← List.getElem?_eq_getElem hip, patronesDe,
          List.getElem?_take_of_lt (by rw [hp]; exact List.mem_range.mp hi)]
      obtain ⟨hl, _, hk, _, hhead, hle, hcad, _⟩ := hpat _ (List.getElem_mem hip)
      generalize (patronesDe n)[i] = c at hci hl hk hhead hle hcad
      refine ⟨c, hci, ?_⟩
      obtain ⟨es, hes⟩ : ∃ es, arreglos c.electrones = c.electrones :: es := by
        cases h : arreglos c.electrones with
        | nil => simp [h] at hhead
        | cons a es => simp [h] at hhead; exact ⟨es, by rw [hhead]⟩
      have hmem : ∀ x ∈ c.electrones :: es, x.length = 5 ∧ x.count 1 = c.electrones.count 1 := by
        intro x hx
        rw [← hes] at hx
        obtain ⟨a, _, b, _⟩ := arreglosDe_mem _ _ _ _ x hx
        exact ⟨by rw [a, hl], b⟩
      rw [hes] at hcad hle
      obtain ⟨cf, hcf⟩ := doWhile_eq _ es c.electrones hcad hmem fuel c
        (by simp at hle; omega) rfl hk
      exact ⟨cf, by rw [hcf, recorridoRef, hes, hk]; rfl⟩)
  simp only [grupo, htot, hp, Option.bind_eq_bind, Option.some_bind]
  change ((List.range p).foldlM (patronPaso fuel) ([], patrones n)).bind _ = _
  rw [h, filterMap_take]
  simp [grupoRef, patronesDe, hp]

theorem mapM_some {α β : Type} (f : α → Option β) (g : α → β) :
    ∀ (l : List α), (∀ x ∈ l, f x = some (g x)) → l.mapM f = some (l.map g) := by
  intro l
  induction l with
  | nil => intro _; rfl
  | cons a l ih =>
    intro h
    rw [List.mapM_cons, h a (List.mem_cons_self _ _),
      ih (fun x hx => h x (List.mem_cons_of_mem _ hx))]
    rfl

/-- With fuel for 30 rounds of each `do`/`while`, `run` returns the ten groups
described by `grupoRef`. -/
theorem run_eq (fuel : Nat) (hf : 30 ≤ fuel) :
    run fuel = some ((List.range' 1 10).map grupoRef) := by
  apply mapM_some
  intro n hn
  obtain ⟨h1, h10⟩ := List.mem_range'_1.mp hn
  exact grupo_eq fuel n hf h1 (by omega)

/-- The group that `run` writes for `n` electrons is `grupoRef n`. -/
theorem grupoDe_ref (fuel n : Nat) (hf : 30 ≤ fuel) (h1 : 1 ≤ n) (h10 : n ≤ 10) :
    GrupoDe fuel n (grupoRef n) := by
  refine ⟨_, run_eq fuel hf, ?_, rfl⟩
  rw [List.getElem?_map, List.getElem?_range' _ _ (by omega)]
  simp
  congr 1
  omega

/-- The group that `run` writes for `n` electrons is determined. -/
theorem grupoDe_unique (fuel n : Nat) (g g' : Grupo) (h : GrupoDe fuel n g)
    (h' : GrupoDe fuel n g') : g = g' := by
  obtain ⟨gs, h1, h2, _⟩ := h
  obtain ⟨gs', h1', h2', _⟩ := h'
  rw [h1] at h1'
  cases h1'
  rw [h2] at h2'
  exact Option.some.inj h2'

/-! ## Arrangements, sign arrays and cells -/

theorem arreglosDe_valores : ∀ (len z u d : Nat) (x : List Int), x ∈ arreglosDe len z u d →
    ∀ a ∈ x, a = 0 ∨ a = 1 ∨ a = 2 := by
  intro len
  induction len with
  | zero =>
    intro z u d x hx
    simp only [arreglosDe] at hx
    split at hx
    · simp at hx
      subst hx
      simp
    · simp at hx
  | succ len ih =>
    intro z u d x hx
    simp only [arreglosDe, List.mem_append] at hx
    rcases hx with hx | hx | hx <;> split at hx <;>
      first
      | (simp at hx; done)
      | (obtain ⟨t, ht, rfl⟩ := List.mem_map.mp hx
         intro a ha
         rcases List.mem_cons.mp ha with rfl | ha
         · simp
         · exact ih _ _ _ t ht a ha)

theorem arreglosDe_of : ∀ (l : List Int), (∀ x ∈ l, x = 0 ∨ x = 1 ∨ x = 2) →
    l ∈ arreglosDe l.length (l.count 0) (l.count 1) (l.count 2) := by
  intro l
  induction l with
  | nil => intro _; simp [arreglosDe]
  | cons a t ih =>
    intro h
    have ht := ih (fun x hx => h x (List.mem_cons_of_mem _ hx))
    simp only [List.length_cons, arreglosDe, List.mem_append]
    rcases h a (List.mem_cons_self _ _) with rfl | rfl | rfl
    · left
      simp only [List.count_cons_self, List.count_cons_of_ne (show (0 : Int) ≠ 1 by decide),
        List.count_cons_of_ne (show (0 : Int) ≠ 2 by decide), Nat.succ_pos, if_true,
        Nat.add_sub_cancel]
      exact List.mem_map.mpr ⟨t, ht, rfl⟩
    · right; left
      simp only [List.count_cons_self, List.count_cons_of_ne (show (1 : Int) ≠ 0 by decide),
        List.count_cons_of_ne (show (1 : Int) ≠ 2 by decide), Nat.succ_pos, if_true,
        Nat.add_sub_cancel]
      exact List.mem_map.mpr ⟨t, ht, rfl⟩
    · right; right
      simp only [List.count_cons_self, List.count_cons_of_ne (show (2 : Int) ≠ 0 by decide),
        List.count_cons_of_ne (show (2 : Int) ≠ 1 by decide), Nat.succ_pos, if_true,
        Nat.add_sub_cancel]
      exact List.mem_map.mpr ⟨t, ht, rfl⟩

theorem arreglosDe_nodup : ∀ (len z u d : Nat), (arreglosDe len z u d).Nodup := by
  intro len
  induction len with
  | zero =>
    intro z u d
    simp only [arreglosDe]
    split <;> simp
  | succ len ih =>
    intro z u d
    have hinj : ∀ a : Int, Function.Injective (fun t : List Int => a :: t) :=
      fun a t t' h => (List.cons.inj h).2
    have hmap : ∀ (a : Int) (c : Prop) [Decidable c] (l : List (List Int)), l.Nodup →
        (if c then l.map (fun t => a :: t) else []).Nodup := by
      intro a c _ l hl
      split
      · exact hl.map (hinj a)
      · exact List.nodup_nil
    have hhead : ∀ (a : Int) (c : Prop) [Decidable c] (l : List (List Int)),
        ∀ x ∈ (if c then l.map (fun t => a :: t) else []), x.head? = some a := by
      intro a c _ l x hx
      split at hx
      · obtain ⟨t, _, rfl⟩ := List.mem_map.mp hx
        rfl
      · simp at hx
    simp only [arreglosDe]
    refine List.Nodup.append (hmap _ _ _ (ih _ _ _))
      (List.Nodup.append (hmap _ _ _ (ih _ _ _)) (hmap _ _ _ (ih _ _ _)) ?_) ?_
    · intro x h1 h2
      have a := hhead _ _ _ x h1
      have b := hhead _ _ _ x h2
      rw [a] at b
      exact absurd (Option.some.inj b) (by decide)
    · intro x h1 h2
      have a := hhead _ _ _ x h1
      rcases List.mem_append.mp h2 with h2 | h2
      · have b := hhead _ _ _ x h2
        rw [a] at b
        exact absurd (Option.some.inj b) (by decide)
      · have b := hhead _ _ _ x h2
        rw [a] at b
        exact absurd (Option.some.inj b) (by decide)

/-- The sign array that shows the signs `s`: 1 for `+`, 0 for `-`. -/
theorem codigosRef_of_signos : ∀ (s : List Bool),
    s.map (fun b => some (if b then (1 : Int) else 0)) ∈ codigosRef s.length := by
  intro s
  induction s with
  | nil => simp [codigosRef]
  | cons b t ih =>
    simp only [List.map_cons, List.length_cons, codigosRef, List.mem_append, List.mem_map]
    cases b
    · left; exact ⟨_, ih, by simp⟩
    · right; exact ⟨_, ih, by simp⟩

theorem celdasRef_valor : ∀ (e : List Int) (arr : List (Option Int)),
    e.count 1 ≤ arr.length → (celdasRef e arr).map Celda.valor = e := by
  intro e
  induction e with
  | nil => intro arr _; rfl
  | cons a t ih =>
    intro arr h
    by_cases h1 : a = 1
    · subst h1
      rw [List.count_cons_self] at h
      cases arr with
      | nil => simp at h
      | cons b bs =>
        simp only [celdasRef, if_true, List.map_cons]
        rw [ih bs (by simpa using h)]
        split <;> rfl
    · rw [List.count_cons_of_ne (Ne.symm h1)] at h
      simp only [celdasRef, h1, if_false, List.map_cons, Celda.valor, ih arr h]

theorem celdasRef_signo : ∀ (e : List Int) (s : List Bool), e.count 1 = s.length →
    (celdasRef e (s.map (fun b => some (if b then (1 : Int) else 0)))).filterMap Celda.signo
      = s := by
  intro e
  induction e with
  | nil =>
    intro s h
    cases s with
    | nil => rfl
    | cons b t => simp at h
  | cons a t ih =>
    intro s h
    by_cases h1 : a = 1
    · subst h1
      rw [List.count_cons_self] at h
      cases s with
      | nil => simp at h
      | cons b bs =>
        have := ih bs (by simpa using h)
        cases b <;> simp [celdasRef, Celda.signo, this]
    · rw [List.count_cons_of_ne (Ne.symm h1)] at h
      simp [celdasRef, h1, Celda.signo, ih s h]

theorem sum_cuentas : ∀ (l : List Int), (∀ x ∈ l, x = 0 ∨ x = 1 ∨ x = 2) →
    l.sum = (l.count 1 : Int) + 2 * (l.count 2 : Int) := by
  intro l
  induction l with
  | nil => intro _; simp
  | cons a t ih =>
    intro h
    have ht := ih (fun x hx => h x (List.mem_cons_of_mem _ hx))
    rcases h a (List.mem_cons_self _ _) with rfl | rfl | rfl
    · simp [List.count_cons, ht]
    · simp [List.count_cons, ht]; omega
    · simp [List.count_cons, ht]; omega

theorem cuentas_length : ∀ (l : List Int), (∀ x ∈ l, x = 0 ∨ x = 1 ∨ x = 2) →
    l.count 0 + l.count 1 + l.count 2 = l.length := by
  intro l
  induction l with
  | nil => intro _; simp
  | cons a t ih =>
    intro h
    have ht := ih (fun x hx => h x (List.mem_cons_of_mem _ hx))
    rcases h a (List.mem_cons_self _ _) with rfl | rfl | rfl <;>
      simp [List.count_cons] <;> omega

/-- Two lists with entries 0, 1, 2 and the same number of each are
rearrangements of each other. -/
theorem perm_of_cuentas (l p : List Int) (hl : ∀ x ∈ l, x = 0 ∨ x = 1 ∨ x = 2)
    (hp : ∀ x ∈ p, x = 0 ∨ x = 1 ∨ x = 2) (h0 : l.count 0 = p.count 0)
    (h1 : l.count 1 = p.count 1) (h2 : l.count 2 = p.count 2) : l.Perm p := by
  rw [List.perm_iff_count]
  intro a
  by_cases ha : a = 0 ∨ a = 1 ∨ a = 2
  · rcases ha with rfl | rfl | rfl <;> assumption
  · rw [List.count_eq_zero_of_not_mem (fun h => ha (hl a h)),
      List.count_eq_zero_of_not_mem (fun h => ha (hp a h))]

theorem codigosRef_bits (k : Nat) :
    ∀ arr ∈ codigosRef k, ∀ b ∈ arr, b = some 0 ∨ b = some 1 := by
  induction k with
  | zero => simp [codigosRef]
  | succ k ih =>
    intro arr harr
    simp only [codigosRef, List.mem_append, List.mem_map] at harr
    rcases harr with ⟨t, ht, rfl⟩ | ⟨t, ht, rfl⟩ <;>
      (intro x hx
       rcases List.mem_cons.mp hx with rfl | hx
       · simp
       · exact ih t ht x hx)

theorem codigosRef_nodup : ∀ k : Nat, (codigosRef k).Nodup := by
  intro k
  induction k with
  | zero => simp [codigosRef]
  | succ k ih =>
    have hinj : ∀ a : Option Int, Function.Injective (fun t : List (Option Int) => a :: t) :=
      fun a t t' h => (List.cons.inj h).2
    simp only [codigosRef]
    refine List.Nodup.append (ih.map (hinj _)) (ih.map (hinj _)) ?_
    intro x h1 h2
    obtain ⟨t, _, rfl⟩ := List.mem_map.mp h1
    obtain ⟨t', _, h⟩ := List.mem_map.mp h2
    exact absurd (List.cons.inj h).1 (by decide)

/-- An array of entries 0 and 1 is determined by which entries are 1. -/
theorem arr_de_signos : ∀ (arr : List (Option Int)), (∀ b ∈ arr, b = some 0 ∨ b = some 1) →
    arr = (arr.map (fun b => decide (b = some 1))).map
      (fun s => some (if s then (1 : Int) else 0)) := by
  intro arr
  induction arr with
  | nil => intro _; rfl
  | cons b t ih =>
    intro h
    have ht := ih (fun x hx => h x (List.mem_cons_of_mem _ hx))
    rcases h b (List.mem_cons_self _ _) with rfl | rfl
    · simp only [List.map_cons]
      rw [← ht]
      rfl
    · simp only [List.map_cons]
      rw [← ht]
      rfl

theorem celdasRef_espin : ∀ (e : List Int) (arr : List (Option Int)),
    e.count 1 = arr.length → ((celdasRef e arr).map Celda.espin).sum = msRef arr := by
  intro e
  induction e with
  | nil =>
    intro arr h
    cases arr with
    | nil => rfl
    | cons b t => simp at h
  | cons a t ih =>
    intro arr h
    by_cases h1 : a = 1
    · subst h1
      rw [List.count_cons_self] at h
      cases arr with
      | nil => simp at h
      | cons b bs =>
        have := ih bs (by simpa using h)
        simp only [celdasRef, if_true, List.map_cons, List.sum_cons, this, msRef]
        split <;> rfl
    · rw [List.count_cons_of_ne (Ne.symm h1)] at h
      simp [celdasRef, h1, Celda.espin, ih arr h]

theorem celdasRef_signado : ∀ (e : List Int) (arr : List (Option Int)),
    ∀ c ∈ celdasRef e arr, (c.valor = 1 ↔ c.signo ≠ none) := by
  intro e
  induction e with
  | nil => intro arr c hc; simp [celdasRef] at hc
  | cons a t ih =>
    intro arr c hc
    by_cases h1 : a = 1
    · subst h1
      cases arr with
      | nil => simp [celdasRef] at hc
      | cons b bs =>
        simp only [celdasRef, if_true, List.mem_cons] at hc
        rcases hc with rfl | hc
        · split <;> simp [Celda.valor, Celda.signo]
        · exact ih bs c hc
    · simp only [celdasRef, h1, if_false, List.mem_cons] at hc
      rcases hc with rfl | hc
      · simp [Celda.valor, Celda.signo, h1]
      · exact ih arr c hc

theorem msRef_cota : ∀ (arr : List (Option Int)),
    (msRef arr).natAbs ≤ arr.length ∧ (msRef arr + arr.length) % 2 = 0 := by
  intro arr
  induction arr with
  | nil => simp [msRef]
  | cons b t ih =>
    have hc : msRef (b :: t) = (if b = some 1 then (1 : Int) else -1) + msRef t := by
      simp [msRef]
    rw [hc]
    obtain ⟨h1, h2⟩ := ih
    simp only [List.length_cons]
    split <;> constructor <;> push_cast <;> omega

theorem mlRef_rango (e : List Int) (h : e.length = 5) :
    mlRef e = ((List.range 5).map (fun j => e.getD j 0 * ORBITALES_D.getD j 0)).sum := by
  match e, h with
  | [a, b, c, d, f], _ =>
    simp [mlRef, ORBITALES_D, List.range_succ]

/-- The lines of the group `grupoRef n`. -/
theorem lineas_ref (n : Nat) (m : Microestado) :
    m ∈ (grupoRef n).lineas ↔
      ∃ c ∈ patronesDe n, ∃ e ∈ arreglos c.electrones, ∃ arr ∈ codigosRef (c.ones.getD 0),
        m = lineaRef e arr := by
  simp only [Grupo.lineas, grupoRef, recorridoRef, visitaRef, List.mem_flatten, List.mem_map]
  constructor
  · rintro ⟨_, ⟨_, ⟨c, hc, rfl⟩, rfl⟩, hm⟩
    simp only [List.mem_flatten, List.mem_map] at hm
    obtain ⟨_, ⟨_, ⟨e, he, rfl⟩, rfl⟩, hm⟩ := hm
    obtain ⟨arr, harr, rfl⟩ := List.mem_map.mp hm
    exact ⟨c, hc, e, he, arr, harr, rfl⟩
  · rintro ⟨c, hc, e, he, arr, harr, rfl⟩
    refine ⟨_, ⟨_, ⟨c, hc, rfl⟩, rfl⟩, ?_⟩
    simp only [List.mem_flatten, List.mem_map]
    exact ⟨_, ⟨_, ⟨e, he, rfl⟩, rfl⟩, List.mem_map.mpr ⟨arr, harr, rfl⟩⟩

/-- The arrangements of a pattern that `run` works on. -/
theorem arreglos_forma (n : Nat) (h1 : 1 ≤ n) (h10 : n ≤ 10) (c : Combinacion)
    (hc : c ∈ patronesDe n) (e : List Int) (he : e ∈ arreglos c.electrones) :
    e.length = 5 ∧ (∀ x ∈ e, x = 0 ∨ x = 1 ∨ x = 2) ∧ e.sum = n ∧
      c.ones.getD 0 = e.count 1 ∧ e.count 2 = c.electrones.count 2 := by
  obtain ⟨_, _, _, hpat⟩ := patrones_bien n (rango n h1 h10)
  obtain ⟨hl, _, hones, hs, _⟩ := hpat c hc
  obtain ⟨a0, _, a1, a2⟩ := arreglosDe_mem _ _ _ _ e he
  have hv := arreglosDe_valores _ _ _ _ e he
  refine ⟨by rw [a0, hl], hv, ?_, by rw [hones, a1]; rfl, a2⟩
  rw [sum_cuentas e hv, a1, a2, ← hs]
  push_cast
  rfl

/-- Every line of the group `grupoRef n` is the line of an occupation of 5
entries 0, 1, 2 that sum to `n` and of a sign array for its entries 1. -/
theorem lineas_forma (n : Nat) (h1 : 1 ≤ n) (h10 : n ≤ 10) (m : Microestado)
    (hm : m ∈ (grupoRef n).lineas) :
    ∃ e arr, m = lineaRef e arr ∧ e.length = 5 ∧ (∀ x ∈ e, x = 0 ∨ x = 1 ∨ x = 2) ∧
      e.sum = n ∧ arr ∈ codigosRef (e.count 1) ∧ arr.length = e.count 1 := by
  obtain ⟨c, hc, e, he, arr, harr, rfl⟩ := (lineas_ref n m).mp hm
  obtain ⟨a, b, s, k, _⟩ := arreglos_forma n h1 h10 c hc e he
  rw [k] at harr
  exact ⟨e, arr, rfl, a, b, s, harr, (codigosRef_mem _ arr harr).1⟩

/-- The lines of one round are pairwise distinct. -/
theorem visita_nodup (k : Nat) (e : List Int) : (visitaRef k e).lineas.Nodup := by
  refine (codigosRef_nodup k).map_on ?_
  intro a _ b _ h
  exact congrArg Microestado.arrOnes h

/-- The lines of the rounds on one pattern are pairwise distinct. -/
theorem recorrido_nodup (c : Combinacion) :
    ((recorridoRef c).map Visita.lineas).flatten.Nodup := by
  rw [List.nodup_flatten]
  constructor
  · intro l hl
    obtain ⟨v, hv, rfl⟩ := List.mem_map.mp hl
    obtain ⟨e, _, rfl⟩ := List.mem_map.mp hv
    exact visita_nodup _ e
  · rw [recorridoRef, List.map_map, List.pairwise_map]
    refine (arreglosDe_nodup _ _ _ _).imp ?_
    intro e e' hne
    refine List.disjoint_left.mpr ?_
    intro m hm hm'
    obtain ⟨arr, _, rfl⟩ := List.mem_map.mp hm
    obtain ⟨arr', _, h⟩ := List.mem_map.mp hm'
    exact hne (congrArg Microestado.electrones h).symm

/-- The lines of the group `grupoRef n` are pairwise distinct. -/
theorem lineas_nodup (n : Nat) (h1 : 1 ≤ n) (h10 : n ≤ 10) : (grupoRef n).lineas.Nodup := by
  obtain ⟨_, _, hcre, _⟩ := patrones_bien n (rango n h1 h10)
  have hnd := creciente_nodup _ hcre
  rw [Grupo.lineas, List.nodup_flatten]
  constructor
  · intro l hl
    obtain ⟨r, hr, rfl⟩ := List.mem_map.mp hl
    obtain ⟨c, _, rfl⟩ := List.mem_map.mp hr
    exact recorrido_nodup c
  · rw [grupoRef, List.map_map, List.pairwise_map]
    rw [List.Nodup, List.pairwise_map] at hnd
    refine List.Pairwise.imp_of_mem ?_ hnd
    intro c c' hc hc' hne
    refine List.disjoint_left.mpr ?_
    intro m hm hm'
    simp only [Function.comp, List.mem_flatten, List.mem_map, recorridoRef, visitaRef] at hm hm'
    obtain ⟨_, ⟨_, ⟨e, he, rfl⟩, rfl⟩, hm⟩ := hm
    obtain ⟨_, ⟨_, ⟨e', he', rfl⟩, rfl⟩, hm'⟩ := hm'
    obtain ⟨arr, _, rfl⟩ := List.mem_map.mp hm
    obtain ⟨arr', _, h⟩ := List.mem_map.mp hm'
    have hee : e' = e := congrArg Microestado.electrones h
    rw [hee] at he'
    exact hne ((arreglos_forma n h1 h10 c hc e he).2.2.2.2.symm.trans
      (arreglos_forma n h1 h10 c' hc' e he').2.2.2.2)

/-! ## Patterns and rounds -/

/-- The pattern of `n` electrons with the same entries as a given occupation. -/
theorem patron_de (n : Nat) (occ : List Int) (hlen : occ.length = 5)
    (hval : ∀ x ∈ occ, x = 0 ∨ x = 1 ∨ x = 2) (hsum : occ.sum = n) (h1 : 1 ≤ n) (h10 : n ≤ 10) :
    ∃ c ∈ patronesDe n, c.ones = some (occ.count 1) ∧ occ ∈ arreglos c.electrones ∧
      (∀ x ∈ c.electrones, x = 0 ∨ x = 1 ∨ x = 2) ∧
      c.electrones.count 0 = occ.count 0 ∧ c.electrones.count 1 = occ.count 1 ∧
      c.electrones.count 2 = occ.count 2 := by
  have hs := sum_cuentas occ hval
  have hl := cuentas_length occ hval
  have hn : n = occ.count 1 + 2 * occ.count 2 := by
    rw [hsum] at hs
    exact_mod_cast hs
  obtain ⟨c, hc, hc1, hc2⟩ := patrones_completos (occ.count 1) (List.mem_range.mpr (by omega))
    (occ.count 2) (List.mem_range.mpr (by omega)) (by omega) (by omega)
  rw [← hn] at hc
  obtain ⟨_, _, _, hpat⟩ := patrones_bien n (rango n h1 h10)
  obtain ⟨hlc, hv, hones, _⟩ := hpat c hc
  have hlc' := cuentas_length c.electrones hv
  have hc0 : c.electrones.count 0 = occ.count 0 := by omega
  refine ⟨c, hc, by rw [hones, hc1], ?_, hv, hc0, hc1, hc2⟩
  have := arreglosDe_of occ hval
  rw [arreglos, hlc, hc0, hc1, hc2, ← hlen]
  exact this

/-- The rounds that `grupoRef` lists for the pattern with index `i`. -/
theorem recorridos_ref (n i : Nat) (hi : i < (getNumCombinaciones n).getD 0) :
    (grupoRef n).recorridos[i]? = (patron n i).map recorridoRef := by
  rw [grupoRef, List.getElem?_map, patron, patronesDe, List.getElem?_take_of_lt hi]

/-- The arrangements that `recorridoRef` visits. -/
theorem recorridoRef_electrones (c : Combinacion) :
    (recorridoRef c).map Visita.electrones = arreglos c.electrones := by
  simp [recorridoRef, visitaRef, List.map_map, Function.comp_def]

/-! ## Properties of the output -/

/-- C1. For every electron count `n` from 1 to 10, the group that `run` writes
for `n` has as many microstate lines as the binomial coefficient `C(10, n)`,
and that number is the entry `NUM_COMBINACIONES_D[n-1]` shown in the header of
the group (10, 45, 120, 210, 252, 210, 120, 45, 10, 1). -/
theorem C1_lineas_binomial (fuel n : Nat) (hf : 30 ≤ fuel) (h1 : 1 ≤ n) (h10 : n ≤ 10) :
    ∃ g, GrupoDe fuel n g ∧ g.lineas.length = Nat.choose 10 n ∧
      NUM_COMBINACIONES_D[n - 1]? = some (Nat.choose 10 n : Int) ∧
      g.combinaciones = (Nat.choose 10 n : Int) ∧
      NUM_COMBINACIONES_D = [10, 45, 120, 210, 252, 210, 120, 45, 10, 1] := by
  refine ⟨grupoRef n, grupoDe_ref fuel n hf h1 h10, ?_⟩
  have h : ∀ n ∈ List.range' 1 10, (grupoRef n).lineas.length = Nat.choose 10 n ∧
      NUM_COMBINACIONES_D[n - 1]? = some (Nat.choose 10 n : Int) ∧
      (grupoRef n).combinaciones = (Nat.choose 10 n : Int) ∧
      NUM_COMBINACIONES_D = [10, 45, 120, 210, 252, 210, 120, 45, 10, 1] := by decide!
  exact h n (rango n h1 h10)

/-- The count of lines and the header value for 5 electrons, with fuel 30. -/
theorem C1_lineas_binomial_witness :
    ∃ g, GrupoDe 30 5 g ∧ g.lineas.length = Nat.choose 10 5 ∧
      NUM_COMBINACIONES_D[5 - 1]? = some (Nat.choose 10 5 : Int) ∧
      g.combinaciones = (Nat.choose 10 5 : Int) ∧
      NUM_COMBINACIONES_D = [10, 45, 120, 210, 252, 210, 120, 45, 10, 1] :=
  C1_lineas_binomial 30 5 (by decide) (by decide) (by decide)

/-- C2. Completeness: for every `n` from 1 to 10, every occupation of 5 entries
in {0, 1, 2} that sum to `n`, and every choice of a sign for each of its singly
occupied orbitals (left to right), the group that `run` writes for `n`
contains a line that shows exactly that occupation and those signs. -/
theorem C2_completo (fuel n : Nat) (hf : 30 ≤ fuel) (h1 : 1 ≤ n) (h10 : n ≤ 10)
    (occ : List Int) (signos : List Bool) (hlen : occ.length = 5)
    (hval : ∀ x ∈ occ, x = 0 ∨ x = 1 ∨ x = 2) (hsum : occ.sum = n)
    (hs : signos.length = occ.count 1) :
    ∃ g, GrupoDe fuel n g ∧
      ∃ m ∈ g.lineas, m.electrones = occ ∧ m.ocupacion = occ ∧ m.signos = signos := by
  refine ⟨grupoRef n, grupoDe_ref fuel n hf h1 h10, ?_⟩
  obtain ⟨c, hc, hones, hmem, _⟩ := patron_de n occ hlen hval hsum h1 h10
  have harr := codigosRef_of_signos signos
  refine ⟨lineaRef occ (signos.map (fun b => some (if b then (1 : Int) else 0))), ?_, rfl, ?_, ?_⟩
  · rw [lineas_ref]
    exact ⟨c, hc, occ, hmem, _, by rw [hones, Option.getD_some, ← hs]; exact harr, rfl⟩
  · exact celdasRef_valor occ _ (by simp [hs])
  · exact celdasRef_signo occ signos hs.symm

/-- The line of the occupation 1, 0, 2, 0, 0 with a negative spin among those
of 3 electrons. -/
theorem C2_completo_witness :
    ∃ g, GrupoDe 30 3 g ∧
      ∃ m ∈ g.lineas, m.electrones = [1, 0, 2, 0, 0] ∧ m.ocupacion = [1, 0, 2, 0, 0] ∧
        m.signos = [false] :=
  C2_completo 30 3 (by decide) (by decide) (by decide) [1, 0, 2, 0, 0] [false] (by decide)
    (by decide) (by decide) (by decide)

/-- C3. For every `n` from 1 to 10, no two lines of the group that `run` writes
for `n` show the same pair (occupation, signs); in particular the lines of a
group are pairwise distinct. -/
theorem C3_sin_repetidos (fuel n : Nat) (hf : 30 ≤ fuel) (h1 : 1 ≤ n) (h10 : n ≤ 10) :
    ∃ g, GrupoDe fuel n g ∧
      (g.lineas.map (fun m => (m.ocupacion, m.signos))).Nodup ∧
      (g.lineas.map Microestado.celdas).Nodup ∧ g.lineas.Nodup := by
  refine ⟨grupoRef n, grupoDe_ref fuel n hf h1 h10, ?_⟩
  have hk : ((grupoRef n).lineas.map (fun m => (m.ocupacion, m.signos))).Nodup := by
    refine (lineas_nodup n h1 h10).map_on ?_
    intro m hm m' hm' h
    obtain ⟨e, arr, rfl, _, _, _, harr, hl⟩ := lineas_forma n h1 h10 m hm
    obtain ⟨e', arr', rfl, _, _, _, harr', hl'⟩ := lineas_forma n h1 h10 m' hm'
    obtain ⟨ho, hs⟩ := Prod.mk.inj h
    have he : e = e' := by
      have a := celdasRef_valor e arr (by omega)
      have b := celdasRef_valor e' arr' (by omega)
      simp only [Microestado.ocupacion, lineaRef] at ho
      rw [a, b] at ho
      exact ho
    subst he
    have a := arr_de_signos arr (codigosRef_bits _ arr harr)
    have b := arr_de_signos arr' (codigosRef_bits _ arr' harr')
    have sa := celdasRef_signo e (arr.map (fun b => decide (b = some 1))) (by simp [hl])
    have sb := celdasRef_signo e (arr'.map (fun b => decide (b = some 1))) (by simp [hl'])
    rw [← a] at sa
    rw [← b] at sb
    simp only [Microestado.signos, lineaRef] at hs
    rw [sa, sb] at hs
    rw [a, b, hs]
  have hcel : ((grupoRef n).lineas.map Microestado.celdas).Nodup := by
    have : (grupoRef n).lineas.map (fun m => (m.ocupacion, m.signos))
        = ((grupoRef n).lineas.map Microestado.celdas).map
            (fun cs => (cs.map Celda.valor, cs.filterMap Celda.signo)) := by
      rw [List.map_map]; rfl
    rw [this] at hk
    exact hk.of_map _
  exact ⟨hk, hcel, hcel.of_map _⟩

/-- No repeated line among those of 5 electrons, with fuel 30. -/
theorem C3_sin_repetidos_witness :
    ∃ g, GrupoDe 30 5 g ∧
      (g.lineas.map (fun m => (m.ocupacion, m.signos))).Nodup ∧
      (g.lineas.map Microestado.celdas).Nodup ∧ g.lineas.Nodup :=
  C3_sin_repetidos 30 5 (by decide) (by decide) (by decide)

/-- C4. For every `n` from 1 to 10 and every line of the group that `run`
writes for `n`, the line has five cells, each shows 0, 1 or 2 electrons, and
the five counts sum to `n`. -/
theorem C4_ocupacion (fuel n : Nat) (hf : 30 ≤ fuel) (h1 : 1 ≤ n) (h10 : n ≤ 10) :
    ∃ g, GrupoDe fuel n g ∧ ∀ m ∈ g.lineas, m.celdas.length = 5 ∧
      (∀ c ∈ m.celdas, c.valor = 0 ∨ c.valor = 1 ∨ c.valor = 2) ∧
      m.ocupacion.sum = n ∧ m.electrones = m.ocupacion := by
  refine ⟨grupoRef n, grupoDe_ref fuel n hf h1 h10, ?_⟩
  intro m hm
  obtain ⟨e, arr, rfl, hl, hv, hs, _, hla⟩ := lineas_forma n h1 h10 m hm
  have ho : (lineaRef e arr).ocupacion = e := celdasRef_valor e arr (by omega)
  refine ⟨?_, ?_, by rw [ho]; exact hs, ho.symm⟩
  · rw [← hl, ← congrArg List.length ho, Microestado.ocupacion, List.length_map]
  · intro c hc
    exact hv _ (by rw [← ho]; exact List.mem_map_of_mem _ hc)

/-- The cells of the lines of 7 electrons, with fuel 30. -/
theorem C4_ocupacion_witness :
    ∃ g, GrupoDe 30 7 g ∧ ∀ m ∈ g.lineas, m.celdas.length = 5 ∧
      (∀ c ∈ m.celdas, c.valor = 0 ∨ c.valor = 1 ∨ c.valor = 2) ∧
      m.ocupacion.sum = 7 ∧ m.electrones = m.ocupacion :=
  C4_ocupacion 30 7 (by decide) (by decide) (by decide)

/-- C5. In every line that `run` writes (in the branch with spin and in the
branch without, for every spin code), the `ML` shown is the sum over the
positions `j = 0..4` of the electron count of cell `j` times `ORBITALES_D[j]`,
with `ORBITALES_D = [2, 1, 0, -1, -2]`; the cells of all lines of one round of
the `do`/`while` show the array `electrones` of that round, so all spin
variants of one permuted occupation show the same `ML`. -/
theorem C5_ML (fuel n : Nat) (hf : 30 ≤ fuel) (h1 : 1 ≤ n) (h10 : n ≤ 10) :
    ∃ g, GrupoDe fuel n g ∧ ORBITALES_D = [2, 1, 0, -1, -2] ∧
      (∀ m ∈ g.lineas, m.ML =
        ((List.range 5).map (fun j => m.ocupacion.getD j 0 * ORBITALES_D.getD j 0)).sum) ∧
      (∀ r ∈ g.recorridos, ∀ v ∈ r, ∀ m ∈ v.lineas, ∀ m' ∈ v.lineas,
        m.ocupacion = v.electrones ∧ m.ML = m'.ML) := by
  refine ⟨grupoRef n, grupoDe_ref fuel n hf h1 h10, rfl, ?_, ?_⟩
  · intro m hm
    obtain ⟨e, arr, rfl, hl, _, _, _, hla⟩ := lineas_forma n h1 h10 m hm
    have ho : (lineaRef e arr).ocupacion = e := celdasRef_valor e arr (by omega)
    rw [ho]
    exact mlRef_rango e hl
  · intro r hr v hv m hm m' hm'
    obtain ⟨c, hc, rfl⟩ := List.mem_map.mp hr
    obtain ⟨e, he, rfl⟩ := List.mem_map.mp hv
    obtain ⟨arr, harr, rfl⟩ := List.mem_map.mp hm
    obtain ⟨arr', _, rfl⟩ := List.mem_map.mp hm'
    obtain ⟨_, _, _, hk, _⟩ := arreglos_forma n h1 h10 c hc e he
    rw [hk] at harr
    exact ⟨celdasRef_valor e arr (by rw [(codigosRef_mem _ arr harr).1]), rfl⟩

/-- The magnetic number of the lines of 4 electrons, with fuel 30. -/
theorem C5_ML_witness :
    ∃ g, GrupoDe 30 4 g ∧ ORBITALES_D = [2, 1, 0, -1, -2] ∧
      (∀ m ∈ g.lineas, m.ML =
        ((List.range 5).map (fun j => m.ocupacion.getD j 0 * ORBITALES_D.getD j 0)).sum) ∧
      (∀ r ∈ g.recorridos, ∀ v ∈ r, ∀ m ∈ v.lineas, ∀ m' ∈ v.lineas,
        m.ocupacion = v.electrones ∧ m.ML = m'.ML) :=
  C5_ML 30 4 (by decide) (by decide) (by decide)

/-- C6. In every line that `run` writes, the integer `MS` that `run`
accumulates (in half-spin units) is the sum of the signs shown in the cells of
the line: +1 for every cell written with `+`, -1 for every cell written with
`-`, and nothing for the cells that hold 0 or 2 electrons; the cells written
with a sign are those that hold 1 electron. -/
theorem C6_MS (fuel n : Nat) (hf : 30 ≤ fuel) (h1 : 1 ≤ n) (h10 : n ≤ 10) :
    ∃ g, GrupoDe fuel n g ∧ ∀ m ∈ g.lineas,
      m.MS = (m.celdas.map Celda.espin).sum ∧
      ∀ c ∈ m.celdas, (c.valor = 1 ↔ c.signo ≠ none) := by
  refine ⟨grupoRef n, grupoDe_ref fuel n hf h1 h10, ?_⟩
  intro m hm
  obtain ⟨e, arr, rfl, _, _, _, _, hla⟩ := lineas_forma n h1 h10 m hm
  exact ⟨(celdasRef_espin e arr hla.symm).symm, celdasRef_signado e arr⟩

/-- The spin of the lines of 6 electrons, with fuel 30. -/
theorem C6_MS_witness :
    ∃ g, GrupoDe 30 6 g ∧ ∀ m ∈ g.lineas,
      m.MS = (m.celdas.map Celda.espin).sum ∧
      ∀ c ∈ m.celdas, (c.valor = 1 ↔ c.signo ≠ none) :=
  C6_MS 30 6 (by decide) (by decide) (by decide)

/-- C7. In every line that `run` writes, with `ones` the number of singly
occupied cells of the line: the accumulated `MS` (half units) has magnitude at
most `ones`, so the spin shown has magnitude at most `ones / 2`; when `ones` is
even the spin is written as the plain integer `MS / 2`, which is exact; when
`ones` is odd it is written as the odd integer `MS` followed by `/2`.  For 5
electrons the line with five cells `+1` ends in ` MS: 5/2`. -/
theorem C7_MS_texto (fuel : Nat) (hf : 30 ≤ fuel) :
    (∀ n, 1 ≤ n → n ≤ 10 → ∃ g, GrupoDe fuel n g ∧ ∀ m ∈ g.lineas,
      m.MS.natAbs ≤ m.ocupacion.count 1 ∧
      (m.ocupacion.count 1 % 2 = 0 →
        m.msTexto = MSTexto.entero (m.MS.tdiv 2) ∧ 2 * m.MS.tdiv 2 = m.MS) ∧
      (m.ocupacion.count 1 % 2 = 1 →
        m.msTexto = MSTexto.medios m.MS ∧ m.MS % 2 = 1)) ∧
    (∃ g, GrupoDe fuel 5 g ∧ ∃ m ∈ g.lineas,
      m.celdas = List.replicate 5 (Celda.mas 1) ∧ m.msTexto = MSTexto.medios 5 ∧
      m.texto = "[+1][+1][+1][+1][+1] ML: 0 MS: 5/2\n") := by
  constructor
  · intro n h1 h10
    refine ⟨grupoRef n, grupoDe_ref fuel n hf h1 h10, ?_⟩
    intro m hm
    obtain ⟨e, arr, rfl, hl, _, _, _, hla⟩ := lineas_forma n h1 h10 m hm
    have ho : (lineaRef e arr).ocupacion = e := celdasRef_valor e arr (by omega)
    obtain ⟨hc, hp⟩ := msRef_cota arr
    have h5 : arr.length ≤ 5 := by
      rw [hla, ← hl]
      exact List.count_le_length _ _
    rw [ho, ← hla]
    simp only [lineaRef]
    generalize msRef arr = MS at hc hp
    have hlo : -5 ≤ MS := by omega
    have hhi : MS ≤ 5 := by omega
    refine ⟨hc, ?_, ?_⟩
    · intro hpar
      interval_cases MS <;> first | (exfalso; omega) | decide
    · intro hpar
      interval_cases MS <;> first | (exfalso; omega) | decide
  · refine ⟨grupoRef 5, grupoDe_ref fuel 5 hf (by decide) (by decide), ?_⟩
    refine ⟨lineaRef [1, 1, 1, 1, 1] (List.replicate 5 (some 1)), ?_, by decide!, by decide!,
      by decide!⟩
    rw [lineas_ref]
    exact ⟨⟨[1, 1, 1, 1, 1], none, some 5⟩, by decide!, _, by decide!, _, by decide!, rfl⟩

/-- The way the spin is written, with fuel 30. -/
theorem C7_MS_texto_witness :
    (∀ n, 1 ≤ n → n ≤ 10 → ∃ g, GrupoDe 30 n g ∧ ∀ m ∈ g.lineas,
      m.MS.natAbs ≤ m.ocupacion.count 1 ∧
      (m.ocupacion.count 1 % 2 = 0 →
        m.msTexto = MSTexto.entero (m.MS.tdiv 2) ∧ 2 * m.MS.tdiv 2 = m.MS) ∧
      (m.ocupacion.count 1 % 2 = 1 →
        m.msTexto = MSTexto.medios m.MS ∧ m.MS % 2 = 1)) ∧
    (∃ g, GrupoDe 30 5 g ∧ ∃ m ∈ g.lineas,
      m.celdas = List.replicate 5 (Celda.mas 1) ∧ m.msTexto = MSTexto.medios 5 ∧
      m.texto = "[+1][+1][+1][+1][+1] ML: 0 MS: 5/2\n") :=
  C7_MS_texto 30 (by decide)

/-- C8. For every `n` from 1 to 10 and every pattern that `setCombinaciones`
writes for `n`, the `do`/`while` over `next_permutation` in `run` makes one
round for every distinct ordering of the five entries of the pattern: the
arrangements of its rounds have no repeats, an arrangement is among them
exactly when it is a rearrangement of the pattern, and their number is 5!
divided by the factorials of the multiplicities of 0, 1 and 2. -/
theorem C8_permutaciones (fuel n : Nat) (hf : 30 ≤ fuel) (h1 : 1 ≤ n) (h10 : n ≤ 10) :
    ∃ g p, GrupoDe fuel n g ∧ getNumCombinaciones n = some p ∧ g.recorridos.length = p ∧
      ∀ i < p, ∃ c r, patron n i = some c ∧ g.recorridos[i]? = some r ∧
        (r.map Visita.electrones).Nodup ∧
        (∀ l, l ∈ r.map Visita.electrones ↔ l.Perm c.electrones) ∧
        (r.map Visita.electrones).length *
          (Nat.factorial (c.electrones.count 0) * Nat.factorial (c.electrones.count 1) *
            Nat.factorial (c.electrones.count 2)) = Nat.factorial 5 := by
  obtain ⟨hsome, hlen, _, hpat⟩ := patrones_bien n (rango n h1 h10)
  obtain ⟨p, hp⟩ := Option.isSome_iff_exists.mp hsome
  rw [hp, Option.getD_some] at hlen
  refine ⟨grupoRef n, p, grupoDe_ref fuel n hf h1 h10, hp, by simp [grupoRef, hlen], ?_⟩
  intro i hi
  have hip : i < (patronesDe n).length := by rw [hlen]; exact hi
  have hci : patron n i = some (patronesDe n)[i] :=
    (patron_iff n i _ (by rw [hp]; exact hi)).mpr (List.getElem?_eq_getElem hip)
  obtain ⟨_, hv, _, _, _, _, _, hmul⟩ := hpat _ (List.getElem_mem hip)
  generalize (patronesDe n)[i] = c at hci hv hmul
  refine ⟨c, recorridoRef c, hci, by rw [recorridos_ref n i (by rw [hp]; exact hi), hci]; rfl,
    ?_, ?_, ?_⟩
  · rw [recorridoRef_electrones]
    exact arreglosDe_nodup _ _ _ _
  · intro l
    rw [recorridoRef_electrones]
    constructor
    · intro h
      obtain ⟨_, a0, a1, a2⟩ := arreglosDe_mem _ _ _ _ l h
      exact perm_of_cuentas l c.electrones (arreglosDe_valores _ _ _ _ l h) hv a0 a1 a2
    · intro h
      have hvl : ∀ x ∈ l, x = 0 ∨ x = 1 ∨ x = 2 := fun x hx => hv x (h.subset hx)
      have := arreglosDe_of l hvl
      rw [h.length_eq, h.count_eq, h.count_eq, h.count_eq] at this
      exact this
  · rw [recorridoRef_electrones]
    exact hmul

/-- The rounds on the three patterns of 5 electrons, with fuel 30. -/
theorem C8_permutaciones_witness :
    ∃ g p, GrupoDe 30 5 g ∧ getNumCombinaciones 5 = some p ∧ g.recorridos.length = p ∧
      ∀ i < p, ∃ c r, patron 5 i = some c ∧ g.recorridos[i]? = some r ∧
        (r.map Visita.electrones).Nodup ∧
        (∀ l, l ∈ r.map Visita.electrones ↔ l.Perm c.electrones) ∧
        (r.map Visita.electrones).length *
          (Nat.factorial (c.electrones.count 0) * Nat.factorial (c.electrones.count 1) *
            Nat.factorial (c.electrones.count 2)) = Nat.factorial 5 :=
  C8_permutaciones 30 5 (by decide) (by decide) (by decide)

/-- C9. For every `n` from 1 to 10 the patterns that `setCombinaciones` writes
for `n` are exhaustive and non-redundant: each has 5 entries in {0, 1, 2} that
sum to `n`, every list of 5 entries in {0, 1, 2} that sum to `n` is a
rearrangement of exactly one of them, and no two of them are rearrangements of
each other. -/
theorem C9_patrones (n : Nat) (h1 : 1 ≤ n) (h10 : n ≤ 10) :
    ∃ p, getNumCombinaciones n = some p ∧
      (∀ i < p, ∃ c, patron n i = some c ∧ c.electrones.length = 5 ∧
        (∀ x ∈ c.electrones, x = 0 ∨ x = 1 ∨ x = 2) ∧ c.electrones.sum = n) ∧
      (∀ occ : List Int, occ.length = 5 → (∀ x ∈ occ, x = 0 ∨ x = 1 ∨ x = 2) → occ.sum = n →
        ∃! i, i < p ∧ ∃ c, patron n i = some c ∧ occ.Perm c.electrones) ∧
      (∀ i j c c', i < p → j < p → i ≠ j → patron n i = some c → patron n j = some c' →
        ¬ c.electrones.Perm c'.electrones) := by
  obtain ⟨hsome, hlen, hcre, hpat⟩ := patrones_bien n (rango n h1 h10)
  obtain ⟨p, hp⟩ := Option.isSome_iff_exists.mp hsome
  rw [hp, Option.getD_some] at hlen
  have hnd := creciente_nodup _ hcre
  have hget : ∀ i c, i < p → (patron n i = some c ↔ (patronesDe n)[i]? = some c) :=
    fun i c hi => patron_iff n i c (by rw [hp]; exact hi)
  have hdis : ∀ i j c c', i < p → j < p → i ≠ j → patron n i = some c → patron n j = some c' →
      ¬ c.electrones.Perm c'.electrones := by
    intro i j c c' hi hj hij hc hc' hperm
    rw [hget i c hi] at hc
    rw [hget j c' hj] at hc'
    have a : ((patronesDe n).map (fun c => c.electrones.count 2))[i]?
        = some (c.electrones.count 2) := by rw [List.getElem?_map, hc]; rfl
    have b : ((patronesDe n).map (fun c => c.electrones.count 2))[j]?
        = some (c.electrones.count 2) := by
      rw [List.getElem?_map, hc', hperm.count_eq 2]; rfl
    obtain ⟨hi', a'⟩ := List.getElem?_eq_some.mp a
    obtain ⟨hj', b'⟩ := List.getElem?_eq_some.mp b
    exact hij ((List.Nodup.getElem_inj_iff hnd).mp (a'.trans b'.symm))
  refine ⟨p, hp, ?_, ?_, hdis⟩
  · intro i hi
    have hip : i < (patronesDe n).length := by rw [hlen]; exact hi
    obtain ⟨hl, hv, _, hs, _⟩ := hpat _ (List.getElem_mem hip)
    refine ⟨_, (hget i _ hi).mpr (List.getElem?_eq_getElem hip), hl, hv, ?_⟩
    rw [sum_cuentas _ hv]
    exact_mod_cast hs
  · intro occ hlen' hval hsum
    obtain ⟨c, hc, _, _, hv, h0, h1', h2⟩ := patron_de n occ hlen' hval hsum h1 h10
    have hperm : occ.Perm c.electrones :=
      perm_of_cuentas occ c.electrones hval hv h0.symm h1'.symm h2.symm
    obtain ⟨i, hi, hci⟩ := List.getElem_of_mem hc
    have hip : i < p := by rw [← hlen]; exact hi
    have hpi : patron n i = some c := by
      rw [hget i c hip, List.getElem?_eq_getElem hi, hci]
    refine ⟨i, ⟨hip, c, hpi, hperm⟩, ?_⟩
    rintro j ⟨hj, c', hc', hperm'⟩
    by_contra hne
    exact hdis j i c' c hj hip hne hc' hpi (hperm'.symm.trans hperm)

/-- The three patterns of 4 electrons. -/
theorem C9_patrones_witness :
    ∃ p, getNumCombinaciones 4 = some p ∧
      (∀ i < p, ∃ c, patron 4 i = some c ∧ c.electrones.length = 5 ∧
        (∀ x ∈ c.electrones, x = 0 ∨ x = 1 ∨ x = 2) ∧ c.electrones.sum = (4 : Nat)) ∧
      (∀ occ : List Int, occ.length = 5 → (∀ x ∈ occ, x = 0 ∨ x = 1 ∨ x = 2) →
        occ.sum = (4 : Nat) →
        ∃! i, i < p ∧ ∃ c, patron 4 i = some c ∧ occ.Perm c.electrones) ∧
      (∀ i j c c', i < p → j < p → i ≠ j → patron 4 i = some c → patron 4 j = some c' →
        ¬ c.electrones.Perm c'.electrones) :=
  C9_patrones 4 (by decide) (by decide)

/-- C10. `getNumCombinaciones(n)` is 1 for `n` in {1, 9, 10}, 2 for `n` in
{2, 3, 7, 8} and 3 for `n` in {4, 5, 6}; for every `n` from 1 to 10 it is the
number of entries that `setCombinaciones` writes into a fresh array (the
entries written are those below that index, so `run` reads no unset pattern),
and for every `n` from 1 to 9 it is the same for `n` and `10 - n`. -/
theorem C10_getNumCombinaciones :
    (∀ n ∈ [1, 9, 10], getNumCombinaciones n = some 1) ∧
    (∀ n ∈ [2, 3, 7, 8], getNumCombinaciones n = some 2) ∧
    (∀ n ∈ [4, 5, 6], getNumCombinaciones n = some 3) ∧
    (∀ n ∈ List.range' 1 10, ∃ p, getNumCombinaciones n = some p ∧
      ((List.range 3).filter
        (fun i => decide (patron n i ≠ (List.replicate 3 Combinacion.nueva)[i]?))).length = p ∧
      ∀ i < 3, (((patron n i).bind Combinacion.ones).isSome = true ↔ i < p)) ∧
    (∀ n ∈ List.range' 1 9, getNumCombinaciones n = getNumCombinaciones (10 - n)) := by
  refine ⟨by decide, by decide, by decide, ?_, by decide⟩
  intro n hn
  have h : ∀ n ∈ List.range' 1 10,
      ((List.range 3).filter
        (fun i => decide (patron n i ≠ (List.replicate 3 Combinacion.nueva)[i]?))).length
          = (getNumCombinaciones n).getD 0 ∧
      (getNumCombinaciones n).isSome = true ∧
      ∀ i ∈ List.range 3, (((patron n i).bind Combinacion.ones).isSome = true ↔
        i < (getNumCombinaciones n).getD 0) := by decide!
  obtain ⟨a, b, c⟩ := h n hn
  obtain ⟨p, hp⟩ := Option.isSome_iff_exists.mp b
  rw [hp, Option.getD_some] at a c
  exact ⟨p, hp, a, fun i hi => c i (List.mem_range.mpr hi)⟩

/-! ## The lines of one round -/

/-- Evaluation for up to 5 slots: the entry of `codigosRef` at the position of
a code holds the binary digits of the code, most significant first. -/
theorem codigosRef_bits_de : ∀ K ∈ List.range 6, ∀ k ∈ List.range (2 ^ K),
    (codigosRef K)[k]? = some ((List.range K).map
      (fun j => some (if k.testBit (K - 1 - j) = true then (1 : Int) else 0))) := by
  decide!

/-- The signs that the line of a sign array shows. -/
theorem lineaRef_signos (e : List Int) (arr : List (Option Int))
    (harr : arr ∈ codigosRef (e.count 1)) :
    (lineaRef e arr).signos = arr.map (fun b => decide (b = some 1)) := by
  have hl := (codigosRef_mem _ arr harr).1
  have a := arr_de_signos arr (codigosRef_bits _ arr harr)
  have s := celdasRef_signo e (arr.map (fun b => decide (b = some 1))) (by simp [hl])
  rw [← a] at s
  exact s

/-- The rounds of the group `grupoRef n`. -/
theorem visitas_forma (n : Nat) (h1 : 1 ≤ n) (h10 : n ≤ 10) (r : List Visita)
    (hr : r ∈ (grupoRef n).recorridos) (v : Visita) (hv : v ∈ r) :
    v = visitaRef (v.electrones.count 1) v.electrones ∧ v.electrones.length = 5 ∧
      (∀ x ∈ v.electrones, x = 0 ∨ x = 1 ∨ x = 2) ∧ v.electrones.sum = n := by
  obtain ⟨c, hc, rfl⟩ := List.mem_map.mp hr
  obtain ⟨e, he, rfl⟩ := List.mem_map.mp hv
  obtain ⟨a, b, s, k, _⟩ := arreglos_forma n h1 h10 c hc e he
  exact ⟨by rw [k]; rfl, a, b, s⟩

/-- C11. For every permuted occupation with `ones > 0` that `run` visits,
exactly `2 ^ ones` lines are written for it, one per code
`k = 0, 1, ..., 2 ^ ones - 1` in increasing order: the line number `k` is
written from the array that `bin` fills for `k`, it shows the occupation, and
the sign of its `j`-th singly occupied orbital from the left is `+` exactly
when bit `ones - 1 - j` of `k` is 1, and `-` otherwise. -/
theorem C11_codigos (fuel n : Nat) (hf : 30 ≤ fuel) (h1 : 1 ≤ n) (h10 : n ≤ 10) :
    ∃ g, GrupoDe fuel n g ∧ ∀ r ∈ g.recorridos, ∀ v ∈ r, 0 < v.electrones.count 1 →
      v.lineas.length = 2 ^ v.electrones.count 1 ∧
      ∀ k < 2 ^ v.electrones.count 1, ∃ m, v.lineas[k]? = some m ∧
        bin k (List.replicate (v.electrones.count 1) none) (v.electrones.count 1)
          = some m.arrOnes ∧
        m.ocupacion = v.electrones ∧
        (∀ c ∈ m.celdas, (c.valor = 1 ↔ c.signo ≠ none)) ∧
        m.signos.length = v.electrones.count 1 ∧
        ∀ j < v.electrones.count 1,
          m.signos[j]? = some (k.testBit (v.electrones.count 1 - 1 - j)) := by
  refine ⟨grupoRef n, grupoDe_ref fuel n hf h1 h10, ?_⟩
  intro r hr v hv hpos
  obtain ⟨hform, hlen, _, _⟩ := visitas_forma n h1 h10 r hr v hv
  generalize hK : v.electrones.count 1 = K at hform hpos
  generalize v.electrones = e at hform hlen hK
  subst hform
  have hK5 : K ≤ 5 := by
    rw [← hK, ← hlen]
    exact List.count_le_length _ _
  refine ⟨by simp [visitaRef, codigosRef_length], ?_⟩
  intro k hk
  have hbits := codigosRef_bits_de K (List.mem_range.mpr (by omega)) k (List.mem_range.mpr hk)
  have hmem : (List.range K).map
      (fun j => some (if k.testBit (K - 1 - j) = true then (1 : Int) else 0)) ∈ codigosRef K :=
    List.getElem?_mem hbits
  generalize (List.range K).map
    (fun j => some (if k.testBit (K - 1 - j) = true then (1 : Int) else 0)) = arr at hbits hmem
  have hl := (codigosRef_mem K arr hmem).1
  refine ⟨lineaRef e arr, by simp [visitaRef, List.getElem?_map, hbits], ?_,
    celdasRef_valor e arr (by omega), celdasRef_signado e arr, ?_, ?_⟩
  · rw [bin_eq K k hpos hK5 hk, List.getD_eq_getElem?_getD, hbits]
    rfl
  · rw [lineaRef_signos e arr (by rw [hK]; exact hmem), List.length_map, hl]
  · intro j hj
    rw [lineaRef_signos e arr (by rw [hK]; exact hmem)]
    have hb := codigosRef_bits_de K (List.mem_range.mpr (by omega)) k (List.mem_range.mpr hk)
    rw [hbits] at hb
    have harr := Option.some.inj hb
    rw [harr, List.map_map, List.getElem?_map, List.getElem?_range hj]
    simp

/-- The lines of the rounds of 3 electrons with their codes. -/
theorem C11_codigos_witness :
    ∃ g, GrupoDe 30 3 g ∧ ∀ r ∈ g.recorridos, ∀ v ∈ r, 0 < v.electrones.count 1 →
      v.lineas.length = 2 ^ v.electrones.count 1 ∧
      ∀ k < 2 ^ v.electrones.count 1, ∃ m, v.lineas[k]? = some m ∧
        bin k (List.replicate (v.electrones.count 1) none) (v.electrones.count 1)
          = some m.arrOnes ∧
        m.ocupacion = v.electrones ∧
        (∀ c ∈ m.celdas, (c.valor = 1 ↔ c.signo ≠ none)) ∧
        m.signos.length = v.electrones.count 1 ∧
        ∀ j < v.electrones.count 1,
          m.signos[j]? = some (k.testBit (v.electrones.count 1 - 1 - j)) :=
  C11_codigos 30 3 (by decide) (by decide) (by decide)

theorem celdasRef_sola : ∀ (e : List Int), e.count 1 = 0 →
    celdasRef e [] = e.map Celda.sola := by
  intro e
  induction e with
  | nil => intro _; rfl
  | cons a t ih =>
    intro h
    have h1 : a ≠ 1 := by
      intro ha
      rw [ha, List.count_cons_self] at h
      omega
    rw [List.count_cons_of_ne (Ne.symm h1)] at h
    simp [celdasRef, h1, ih h]

/-- C12. For every permuted occupation without singly occupied orbital that
`run` visits, exactly one line is written, its five cells are the bare
electron counts, and its spin is written as the plain integer 0, however many
orbitals hold 2 electrons.  The whole group of 10 electrons is the single line
`[2][2][2][2][2] ML: 0 MS: 0`. -/
theorem C12_sin_espin (fuel : Nat) (hf : 30 ≤ fuel) :
    (∀ n, 1 ≤ n → n ≤ 10 → ∃ g, GrupoDe fuel n g ∧
      ∀ r ∈ g.recorridos, ∀ v ∈ r, v.electrones.count 1 = 0 →
        ∃ m, v.lineas = [m] ∧ m.celdas = v.electrones.map Celda.sola ∧ m.celdas.length = 5 ∧
          (∀ c ∈ m.celdas, c.signo = none) ∧ m.MS = 0 ∧ m.msTexto = MSTexto.entero 0 ∧
          m.msTexto.texto = " MS: 0\n") ∧
    (∃ g, GrupoDe fuel 10 g ∧
      g.lineas.map Microestado.texto = ["[2][2][2][2][2] ML: 0 MS: 0\n"] ∧
      g.texto = "Numero de electrones: 10\nNumero de combinaciones: 1\n" ++
        "[2][2][2][2][2] ML: 0 MS: 0\n" ++ "\n") := by
  constructor
  · intro n h1 h10
    refine ⟨grupoRef n, grupoDe_ref fuel n hf h1 h10, ?_⟩
    intro r hr v hv h0
    obtain ⟨hform, hlen, _, _⟩ := visitas_forma n h1 h10 r hr v hv
    rw [h0] at hform
    generalize v.electrones = e at hform hlen h0
    subst hform
    have hc := celdasRef_sola e h0
    refine ⟨lineaRef e [], rfl, hc, ?_, ?_, rfl, rfl, rfl⟩
    · simp only [lineaRef]
      rw [hc, List.length_map, hlen]
    · intro c hcm
      simp only [lineaRef] at hcm
      rw [hc] at hcm
      obtain ⟨x, _, rfl⟩ := List.mem_map.mp hcm
      rfl
  · exact ⟨grupoRef 10, grupoDe_ref fuel 10 hf (by decide) (by decide), by decide!, by decide!⟩

/-- The lines without spin, with fuel 30. -/
theorem C12_sin_espin_witness :
    (∀ n, 1 ≤ n → n ≤ 10 → ∃ g, GrupoDe 30 n g ∧
      ∀ r ∈ g.recorridos, ∀ v ∈ r, v.electrones.count 1 = 0 →
        ∃ m, v.lineas = [m] ∧ m.celdas = v.electrones.map Celda.sola ∧ m.celdas.length = 5 ∧
          (∀ c ∈ m.celdas, c.signo = none) ∧ m.MS = 0 ∧ m.msTexto = MSTexto.entero 0 ∧
          m.msTexto.texto = " MS: 0\n") ∧
    (∃ g, GrupoDe 30 10 g ∧
      g.lineas.map Microestado.texto = ["[2][2][2][2][2] ML: 0 MS: 0\n"] ∧
      g.texto = "Numero de electrones: 10\nNumero de combinaciones: 1\n" ++
        "[2][2][2][2][2] ML: 0 MS: 0\n" ++ "\n") :=
  C12_sin_espin 30 (by decide)

/-- The cell written for every orbital: with a sign for 1 electron, bare
otherwise. -/
theorem celdasRef_pos : ∀ (e : List Int) (arr : List (Option Int)),
    e.count 1 ≤ arr.length →
    List.Forall₂ (fun x c => (x = 1 ∧ (c = Celda.mas 1 ∨ c = Celda.menos 1)) ∨
      (x ≠ 1 ∧ c = Celda.sola x)) e (celdasRef e arr) := by
  intro e
  induction e with
  | nil => intro arr _; exact List.Forall₂.nil
  | cons a t ih =>
    intro arr h
    by_cases h1 : a = 1
    · subst h1
      rw [List.count_cons_self] at h
      cases arr with
      | nil => simp at h
      | cons b bs =>
        simp only [celdasRef, if_true]
        refine List.Forall₂.cons (Or.inl ⟨rfl, ?_⟩) (ih bs (by simpa using h))
        split
        · left; rfl
        · right; rfl
    · rw [List.count_cons_of_ne (Ne.symm h1)] at h
      simp only [celdasRef, h1, if_false]
      exact List.Forall₂.cons (Or.inr ⟨h1, rfl⟩) (ih arr h)

/-- C13. Every line that `run` writes has the form
`[c0][c1][c2][c3][c4] ML: <int> MS: <int or int/2>`: five cells, one per
orbital in the order of `ORBITALES_D` (+2, +1, 0, -1, -2), then the integer
`ML`, then the spin as an integer or as an integer followed by `/2`; the cell
of an orbital is `[+1]` or `[-1]` exactly when the orbital holds one electron
and is the bare count `[0]` or `[2]` exactly when it holds 0 or 2. -/
theorem C13_forma (fuel n : Nat) (hf : 30 ≤ fuel) (h1 : 1 ≤ n) (h10 : n ≤ 10) :
    ∃ g, GrupoDe fuel n g ∧ ORBITALES_D = [2, 1, 0, -1, -2] ∧ ∀ m ∈ g.lineas,
      (∃ c0 c1 c2 c3 c4, m.celdas = [c0, c1, c2, c3, c4] ∧
        m.texto = c0.texto ++ c1.texto ++ c2.texto ++ c3.texto ++ c4.texto ++
          " ML: " ++ toString m.ML ++ m.msTexto.texto) ∧
      (∃ v : Int, m.msTexto.texto = " MS: " ++ toString v ++ "\n" ∨
        m.msTexto.texto = " MS: " ++ toString v ++ "/2\n") ∧
      List.Forall₂ (fun x c =>
        (x = 1 ∧ (c.texto = "[+1]" ∨ c.texto = "[-1]")) ∨
        (x = 0 ∧ c.texto = "[0]") ∨ (x = 2 ∧ c.texto = "[2]")) m.electrones m.celdas := by
  refine ⟨grupoRef n, grupoDe_ref fuel n hf h1 h10, rfl, ?_⟩
  intro m hm
  obtain ⟨e, arr, rfl, hl, hv, _, _, hla⟩ := lineas_forma n h1 h10 m hm
  have hpos := celdasRef_pos e arr (by omega)
  have hlc : (celdasRef e arr).length = 5 := by rw [← hpos.length_eq, hl]
  refine ⟨?_, ?_, ?_⟩
  · simp only [lineaRef, Microestado.texto]
    generalize celdasRef e arr = cs at hlc
    match cs, hlc with
    | [c0, c1, c2, c3, c4], _ =>
      refine ⟨c0, c1, c2, c3, c4, rfl, ?_⟩
      simp [String.join]
  · simp only [lineaRef]
    split
    · exact ⟨_, Or.inl rfl⟩
    · exact ⟨_, Or.inr rfl⟩
  · simp only [lineaRef]
    have h : List.Forall₂ (fun x c => (x = 0 ∨ x = 1 ∨ x = 2) ∧
        ((x = 1 ∧ (c = Celda.mas 1 ∨ c = Celda.menos 1)) ∨ (x ≠ 1 ∧ c = Celda.sola x)))
        e (celdasRef e arr) :=
      (List.forall₂_and_left e (celdasRef e arr)).mpr ⟨hv, hpos⟩
    refine List.Forall₂.imp ?_ h
    intro x c hxc
    obtain ⟨hx, hc⟩ := hxc
    rcases hc with ⟨rfl, rfl | rfl⟩ | ⟨hne, rfl⟩
    · exact Or.inl ⟨rfl, Or.inl (by decide)⟩
    · exact Or.inl ⟨rfl, Or.inr (by decide)⟩
    · rcases hx with rfl | rfl | rfl
      · exact Or.inr (Or.inl ⟨rfl, by decide⟩)
      · exact absurd rfl hne
      · exact Or.inr (Or.inr ⟨rfl, by decide⟩)

/-- The form of the lines of 3 electrons, with fuel 30. -/
theorem C13_forma_witness :
    ∃ g, GrupoDe 30 3 g ∧ ORBITALES_D = [2, 1, 0, -1, -2] ∧ ∀ m ∈ g.lineas,
      (∃ c0 c1 c2 c3 c4, m.celdas = [c0, c1, c2, c3, c4] ∧
        m.texto = c0.texto ++ c1.texto ++ c2.texto ++ c3.texto ++ c4.texto ++
          " ML: " ++ toString m.ML ++ m.msTexto.texto) ∧
      (∃ v : Int, m.msTexto.texto = " MS: " ++ toString v ++ "\n" ∨
        m.msTexto.texto = " MS: " ++ toString v ++ "/2\n") ∧
      List.Forall₂ (fun x c =>
        (x = 1 ∧ (c.texto = "[+1]" ∨ c.texto = "[-1]")) ∨
        (x = 0 ∧ c.texto = "[0]") ∨ (x = 2 ∧ c.texto = "[2]")) m.electrones m.celdas :=
  C13_forma 30 3 (by decide) (by decide) (by decide)

/-! ## Concrete groups -/

/-- C14. For 1 electron there is exactly one pattern, `[0,0,0,0,1]`; its
`do`/`while` makes 5 rounds, one per position of the electron, each round
writes 2 lines, and the group has exactly 10 lines; among them are
`[+1][0][0][0][0] ML: 2 MS: 1/2` and `[-1][0][0][0][0] ML: 2 MS: -1/2`. -/
theorem C14_un_electron (fuel : Nat) (hf : 30 ≤ fuel) :
    ∃ g, GrupoDe fuel 1 g ∧ getNumCombinaciones 1 = some 1 ∧
      (patron 1 0).map Combinacion.electrones = some [0, 0, 0, 0, 1] ∧
      ∃ r, g.recorridos = [r] ∧
        r.map Visita.electrones = [[0, 0, 0, 0, 1], [0, 0, 0, 1, 0], [0, 0, 1, 0, 0],
          [0, 1, 0, 0, 0], [1, 0, 0, 0, 0]] ∧
        (∀ v ∈ r, v.lineas.length = 2) ∧ g.lineas.length = 10 ∧
        "[+1][0][0][0][0] ML: 2 MS: 1/2\n" ∈ g.lineas.map Microestado.texto ∧
        "[-1][0][0][0][0] ML: 2 MS: -1/2\n" ∈ g.lineas.map Microestado.texto := by
  refine ⟨grupoRef 1, grupoDe_ref fuel 1 hf (by decide) (by decide), rfl, by decide!, ?_⟩
  refine ⟨recorridoRef ⟨[0, 0, 0, 0, 1], none, some 1⟩, by decide!, by decide!, by decide!,
    by decide!, by decide!, by decide!⟩

/-- The group of 1 electron, with fuel 30. -/
theorem C14_un_electron_witness :
    ∃ g, GrupoDe 30 1 g ∧ getNumCombinaciones 1 = some 1 ∧
      (patron 1 0).map Combinacion.electrones = some [0, 0, 0, 0, 1] ∧
      ∃ r, g.recorridos = [r] ∧
        r.map Visita.electrones = [[0, 0, 0, 0, 1], [0, 0, 0, 1, 0], [0, 0, 1, 0, 0],
          [0, 1, 0, 0, 0], [1, 0, 0, 0, 0]] ∧
        (∀ v ∈ r, v.lineas.length = 2) ∧ g.lineas.length = 10 ∧
        "[+1][0][0][0][0] ML: 2 MS: 1/2\n" ∈ g.lineas.map Microestado.texto ∧
        "[-1][0][0][0][0] ML: 2 MS: -1/2\n" ∈ g.lineas.map Microestado.texto :=
  C14_un_electron 30 (by decide)

/-- C15 (amended). For 5 electrons the pattern `[1,1,1,1,1]` is the pattern
with index 0; its five entries are equal, so its `do`/`while` makes a single
round (5!/5! = 1 arrangement), which writes `2 ^ 5 = 32` lines: this pattern
contributes 32 lines to the group of 5 electrons. -/
theorem C15_todos_unos (fuel : Nat) (hf : 30 ≤ fuel) :
    ∃ g, GrupoDe fuel 5 g ∧ (patron 5 0).map Combinacion.electrones = some [1, 1, 1, 1, 1] ∧
      ∃ r, g.recorridos[0]? = some r ∧ r.map Visita.electrones = [[1, 1, 1, 1, 1]] ∧
        (∀ v ∈ r, v.lineas.length = 32) ∧ (r.map Visita.lineas).flatten.length = 32 := by
  refine ⟨grupoRef 5, grupoDe_ref fuel 5 hf (by decide) (by decide), by decide!, ?_⟩
  refine ⟨recorridoRef ⟨[1, 1, 1, 1, 1], none, some 5⟩, by decide!, by decide!, by decide!,
    by decide!⟩

/-- The rounds on `[1,1,1,1,1]`, with fuel 30. -/
theorem C15_todos_unos_witness :
    ∃ g, GrupoDe 30 5 g ∧ (patron 5 0).map Combinacion.electrones = some [1, 1, 1, 1, 1] ∧
      ∃ r, g.recorridos[0]? = some r ∧ r.map Visita.electrones = [[1, 1, 1, 1, 1]] ∧
        (∀ v ∈ r, v.lineas.length = 32) ∧ (r.map Visita.lineas).flatten.length = 32 :=
  C15_todos_unos 30 (by decide)

/-- C15 as stated fails: on the pattern `[1,1,1,1,1]` of 5 electrons `run` does
not make 120 rounds and does not write 3840 lines. -/
theorem C15_contraejemplo :
    ¬ ∃ g, GrupoDe 30 5 g ∧ ∃ r, g.recorridos[0]? = some r ∧
      (r.length = 120 ∨ (r.map Visita.lineas).flatten.length = 3840) := by
  rintro ⟨g, hg, r, hr, h⟩
  have hg' := grupoDe_unique 30 5 g (grupoRef 5) hg
    (grupoDe_ref 30 5 (by decide) (by decide) (by decide))
  subst hg'
  have h0 : (grupoRef 5).recorridos[0]? = some (recorridoRef ⟨[1, 1, 1, 1, 1], none, some 5⟩) := by
    decide!
  rw [h0] at hr
  cases hr
  have h1 : (recorridoRef ⟨[1, 1, 1, 1, 1], none, some 5⟩).length = 1 := by decide!
  have h2 : ((recorridoRef ⟨[1, 1, 1, 1, 1], none, some 5⟩).map Visita.lineas).flatten.length
      = 32 := by decide!
  rw [h1, h2] at h
  omega

/-- C19 (amended). For 3 electrons `run` visits the occupation `[1,1,1,0,0]`,
and the eight lines it writes for it show, in order, the cells
`[-1][-1][-1][0][0]`, `[-1][-1][+1][0][0]`, `[-1][+1][-1][0][0]`,
`[-1][+1][+1][0][0]`, `[+1][-1][-1][0][0]`, `[+1][-1][+1][0][0]`,
`[+1][+1][-1][0][0]`, `[+1][+1][+1][0][0]`. -/
theorem C19_variantes (fuel : Nat) (hf : 30 ≤ fuel) :
    ∃ g, GrupoDe fuel 3 g ∧ ∃ r ∈ g.recorridos, ∃ v ∈ r, v.electrones = [1, 1, 1, 0, 0] ∧
      v.lineas.map (fun m => String.join (m.celdas.map Celda.texto)) =
        ["[-1][-1][-1][0][0]", "[-1][-1][+1][0][0]", "[-1][+1][-1][0][0]",
          "[-1][+1][+1][0][0]", "[+1][-1][-1][0][0]", "[+1][-1][+1][0][0]",
          "[+1][+1][-1][0][0]", "[+1][+1][+1][0][0]"] := by
  refine ⟨grupoRef 3, grupoDe_ref fuel 3 hf (by decide) (by decide), ?_⟩
  refine ⟨recorridoRef ⟨[0, 0, 1, 1, 1], none, some 3⟩, by decide!,
    visitaRef 3 [1, 1, 1, 0, 0], by decide!, rfl, by decide!⟩

/-- The eight lines of `[1,1,1,0,0]`, with fuel 30. -/
theorem C19_variantes_witness :
    ∃ g, GrupoDe 30 3 g ∧ ∃ r ∈ g.recorridos, ∃ v ∈ r, v.electrones = [1, 1, 1, 0, 0] ∧
      v.lineas.map (fun m => String.join (m.celdas.map Celda.texto)) =
        ["[-1][-1][-1][0][0]", "[-1][-1][+1][0][0]", "[-1][+1][-1][0][0]",
          "[-1][+1][+1][0][0]", "[+1][-1][-1][0][0]", "[+1][-1][+1][0][0]",
          "[+1][+1][-1][0][0]", "[+1][+1][+1][0][0]"] :=
  C19_variantes 30 (by decide)

/-- C19 as stated fails: no round of `run` on the occupation `[1,1,1,0,0]`
writes the list of the comment in the source, whose entry 7 repeats entry 4. -/
theorem C19_contraejemplo :
    ¬ ∃ g, GrupoDe 30 3 g ∧ ∃ r ∈ g.recorridos, ∃ v ∈ r, v.electrones = [1, 1, 1, 0, 0] ∧
      v.lineas.map (fun m => String.join (m.celdas.map Celda.texto)) =
        ["[-1][-1][-1][0][0]", "[-1][-1][+1][0][0]", "[-1][+1][-1][0][0]",
          "[-1][+1][+1][0][0]", "[+1][-1][-1][0][0]", "[+1][-1][+1][0][0]",
          "[-1][+1][+1][0][0]", "[+1][+1][+1][0][0]"] := by
  rintro ⟨g, hg, h⟩
  have hg' := grupoDe_unique 30 3 g (grupoRef 3) hg
    (grupoDe_ref 30 3 (by decide) (by decide) (by decide))
  subst hg'
  have hno : ∀ r ∈ (grupoRef 3).recorridos, ∀ v ∈ r, v.electrones = [1, 1, 1, 0, 0] →
      v.lineas.map (fun m => String.join (m.celdas.map Celda.texto)) ≠
        ["[-1][-1][-1][0][0]", "[-1][-1][+1][0][0]", "[-1][+1][-1][0][0]",
          "[-1][+1][+1][0][0]", "[+1][-1][-1][0][0]", "[+1][-1][+1][0][0]",
          "[-1][+1][+1][0][0]", "[+1][+1][+1][0][0]"] := by decide!
  obtain ⟨r, hr, v, hv, he, ht⟩ := h
  exact hno r hr v hv he ht

/-! ## The stored `ones` and the order of the rounds -/

theorem foldlM_congr_mem {α β : Type} (f g : β → α → Option β) :
    ∀ (l : List α) (b : β), (∀ a ∈ l, ∀ b, f b a = g b a) → l.foldlM f b = l.foldlM g b := by
  intro l
  induction l with
  | nil => intro b _; rfl
  | cons a t ih =>
    intro b h
    rw [List.foldlM_cons, List.foldlM_cons, h a (List.mem_cons_self _ _) b]
    cases g b a with
    | none => rfl
    | some b' => exact ih b' (fun x hx => h x (List.mem_cons_of_mem _ hx))

/-- When the cell loop reaches an orbital `j` that holds 1 electron, its
counter `ones` is the number of entries 1 before `j`, which is below the
length of `arrOnes`. -/
theorem indice_lectura (e : List Int) (arr : List (Option Int)) (harr : ∀ b ∈ arr, b ≠ none)
    (hl : e.length ≤ 5) (hk : e.count 1 ≤ arr.length) (j : Nat) (hj : e[j]? = some 1) :
    ∃ st, (List.range j).foldlM (celdaEspin e arr) ([], 0, 0) = some st ∧
      st.2.2 = (e.take j).count 1 ∧ st.2.2 < arr.length := by
  obtain ⟨hje, hej⟩ := List.getElem?_eq_some.mp hj
  have hsplit : e = e.take j ++ (e[j] :: e.drop (j + 1)) := by
    rw [← List.drop_eq_getElem_cons hje, List.take_append_drop]
  have hcount : (e.take j).count 1 + 1 ≤ e.count 1 := by
    conv_rhs => rw [hsplit]
    rw [List.count_append, hej, List.count_cons_self]
    omega
  have hlt : (e.take j).length = j := by
    rw [List.length_take]
    omega
  have hcongr : (List.range j).foldlM (celdaEspin e arr) ([], 0, 0)
      = (List.range j).foldlM (celdaEspin (e.take j) arr) ([], 0, 0) := by
    apply foldlM_congr_mem
    intro a ha st
    have : (e.take j)[a]? = e[a]? := List.getElem?_take_of_lt (List.mem_range.mp ha)
    simp only [celdaEspin, this]
  have h := celdas_loop (e.take j) arr harr (by omega) j 0 [] 0 0 (by omega)
    (by simp only [List.drop_zero]; omega)
  rw [← List.range_eq_range'] at h
  rw [hcongr, h]
  refine ⟨_, rfl, by simp, ?_⟩
  simp only [List.drop_zero, Nat.zero_add]
  omega

theorem contarUnos_eq (e : List Int) (h : e.length = 5) : contarUnos e = e.count 1 := by
  match e, h with
  | [a, b, c, d, f], _ =>
    simp only [contarUnos, NUM_ORBITALES, List.range_succ, List.range_zero, List.nil_append,
      List.cons_append, List.foldl_cons, List.foldl_nil, List.getD_cons_zero,
      List.getD_cons_succ, List.count_cons, List.count_nil, beq_iff_eq]
    split_ifs <;> omega

/-- C16. At every permutation that `run` visits, the field `ones` that
`setElectrones` stored once for the pattern is the number of entries 1 of the
current array `electrones` (the count that the loop of `setElectrones` would
give again); the array `arrOnes` of every line has that length and is filled,
and whenever the cell loop reaches an orbital that holds 1 electron its
running index is below that length, so `arrOnes` is never read out of
bounds. -/
theorem C16_ones (fuel n : Nat) (hf : 30 ≤ fuel) (h1 : 1 ≤ n) (h10 : n ≤ 10) :
    ∃ g p, GrupoDe fuel n g ∧ getNumCombinaciones n = some p ∧
      ∀ i < p, ∃ c r k, patron n i = some c ∧ c.ones = some k ∧ g.recorridos[i]? = some r ∧
        ∀ v ∈ r, v.electrones.count 1 = k ∧ contarUnos v.electrones = k ∧
          ∀ m ∈ v.lineas, m.arrOnes.length = k ∧ (∀ b ∈ m.arrOnes, b ≠ none) ∧
            ∀ j : Nat, v.electrones[j]? = some 1 →
              ∃ st, (List.range j).foldlM (celdaEspin v.electrones m.arrOnes) ([], 0, 0)
                  = some st ∧
                st.2.2 = (v.electrones.take j).count 1 ∧ st.2.2 < m.arrOnes.length := by
  obtain ⟨hsome, hlen, _, hpat⟩ := patrones_bien n (rango n h1 h10)
  obtain ⟨p, hp⟩ := Option.isSome_iff_exists.mp hsome
  rw [hp, Option.getD_some] at hlen
  refine ⟨grupoRef n, p, grupoDe_ref fuel n hf h1 h10, hp, ?_⟩
  intro i hi
  have hip : i < (patronesDe n).length := by rw [hlen]; exact hi
  have hci : patron n i = some (patronesDe n)[i] :=
    (patron_iff n i _ (by rw [hp]; exact hi)).mpr (List.getElem?_eq_getElem hip)
  have hmem : (patronesDe n)[i] ∈ patronesDe n := List.getElem_mem hip
  obtain ⟨_, _, hones, _⟩ := hpat _ hmem
  generalize (patronesDe n)[i] = c at hci hones hmem
  refine ⟨c, recorridoRef c, c.electrones.count 1, hci, hones,
    by rw [recorridos_ref n i (by rw [hp]; exact hi), hci]; rfl, ?_⟩
  intro v hv
  obtain ⟨e, he, rfl⟩ := List.mem_map.mp hv
  obtain ⟨hl, _, _, hk, _⟩ := arreglos_forma n h1 h10 c hmem e he
  rw [hones, Option.getD_some] at hk
  refine ⟨hk.symm, by show contarUnos e = _; rw [contarUnos_eq e hl, hk], ?_⟩
  intro m hm
  rw [hones, Option.getD_some] at hm
  obtain ⟨arr, harr, rfl⟩ := List.mem_map.mp hm
  obtain ⟨hla, hs⟩ := codigosRef_mem _ arr harr
  refine ⟨hla, hs, ?_⟩
  intro j hj
  exact indice_lectura e arr hs (by omega) (by show e.count 1 ≤ arr.length; omega) j hj

/-- The stored `ones` and the reads of `arrOnes` for 4 electrons, with fuel 30. -/
theorem C16_ones_witness :
    ∃ g p, GrupoDe 30 4 g ∧ getNumCombinaciones 4 = some p ∧
      ∀ i < p, ∃ c r k, patron 4 i = some c ∧ c.ones = some k ∧ g.recorridos[i]? = some r ∧
        ∀ v ∈ r, v.electrones.count 1 = k ∧ contarUnos v.electrones = k ∧
          ∀ m ∈ v.lineas, m.arrOnes.length = k ∧ (∀ b ∈ m.arrOnes, b ≠ none) ∧
            ∀ j : Nat, v.electrones[j]? = some 1 →
              ∃ st, (List.range j).foldlM (celdaEspin v.electrones m.arrOnes) ([], 0, 0)
                  = some st ∧
                st.2.2 = (v.electrones.take j).count 1 ∧ st.2.2 < m.arrOnes.length :=
  C16_ones 30 4 (by decide) (by decide) (by decide)

theorem arreglosDe_lex : ∀ (len z u d : Nat),
    (arreglosDe len z u d).Pairwise (List.Lex (fun a b : Int => a < b)) := by
  intro len
  induction len with
  | zero =>
    intro z u d
    simp only [arreglosDe]
    split <;> simp
  | succ len ih =>
    intro z u d
    have hmap : ∀ (a : Int) (c : Prop) [Decidable c] (l : List (List Int)),
        l.Pairwise (List.Lex (fun a b : Int => a < b)) →
        (if c then l.map (fun t => a :: t) else []).Pairwise
          (List.Lex (fun a b : Int => a < b)) := by
      intro a c _ l hl
      split
      · rw [List.pairwise_map]
        exact hl.imp (fun h => List.Lex.cons h)
      · exact List.Pairwise.nil
    have hhead : ∀ (a : Int) (c : Prop) [Decidable c] (l : List (List Int)),
        ∀ x ∈ (if c then l.map (fun t => a :: t) else []), ∃ t, x = a :: t := by
      intro a c _ l x hx
      split at hx
      · obtain ⟨t, _, rfl⟩ := List.mem_map.mp hx
        exact ⟨t, rfl⟩
      · simp at hx
    simp only [arreglosDe]
    rw [List.pairwise_append, List.pairwise_append]
    refine ⟨hmap _ _ _ (ih _ _ _), ⟨hmap _ _ _ (ih _ _ _), hmap _ _ _ (ih _ _ _), ?_⟩, ?_⟩
    · intro x hx y hy
      obtain ⟨t, rfl⟩ := hhead _ _ _ x hx
      obtain ⟨t', rfl⟩ := hhead _ _ _ y hy
      exact List.Lex.rel (by decide)
    · intro x hx y hy
      obtain ⟨t, rfl⟩ := hhead _ _ _ x hx
      rcases List.mem_append.mp hy with hy | hy
      · obtain ⟨t', rfl⟩ := hhead _ _ _ y hy
        exact List.Lex.rel (by decide)
      · obtain ⟨t', rfl⟩ := hhead _ _ _ y hy
        exact List.Lex.rel (by decide)

/-- Evaluation of the pattern table: every pattern is written in
non-decreasing order, and the last of its rearrangements in lexicographic
order is the pattern reversed. -/
theorem patrones_orden : ∀ n ∈ List.range' 1 10, ∀ c ∈ patronesDe n,
    c.electrones.Pairwise (fun a b => a ≤ b) ∧
    (arreglos c.electrones).getLast? = some c.electrones.reverse := by
  decide!

/-- C17. Every pattern that `setCombinaciones` writes is in non-decreasing
order, hence the lexicographically smallest arrangement of its entries; the
arrangements that `run` visits for it are strictly increasing in
lexicographic order, start at the pattern as written and end at its
non-increasing arrangement. -/
theorem C17_orden (fuel n : Nat) (hf : 30 ≤ fuel) (h1 : 1 ≤ n) (h10 : n ≤ 10) :
    ∃ g p, GrupoDe fuel n g ∧ getNumCombinaciones n = some p ∧
      ∀ i < p, ∃ c r, patron n i = some c ∧ g.recorridos[i]? = some r ∧
        c.electrones.Pairwise (fun a b => a ≤ b) ∧
        (∀ l : List Int, l.Perm c.electrones →
          l = c.electrones ∨ List.Lex (fun a b : Int => a < b) c.electrones l) ∧
        (r.map Visita.electrones).Pairwise (List.Lex (fun a b : Int => a < b)) ∧
        (r.map Visita.electrones).head? = some c.electrones ∧
        ∃ u, (r.map Visita.electrones).getLast? = some u ∧
          u.Pairwise (fun a b => a ≥ b) ∧ u.Perm c.electrones := by
  obtain ⟨hsome, hlen, _, hpat⟩ := patrones_bien n (rango n h1 h10)
  obtain ⟨p, hp⟩ := Option.isSome_iff_exists.mp hsome
  rw [hp, Option.getD_some] at hlen
  refine ⟨grupoRef n, p, grupoDe_ref fuel n hf h1 h10, hp, ?_⟩
  intro i hi
  have hip : i < (patronesDe n).length := by rw [hlen]; exact hi
  have hci : patron n i = some (patronesDe n)[i] :=
    (patron_iff n i _ (by rw [hp]; exact hi)).mpr (List.getElem?_eq_getElem hip)
  have hmem : (patronesDe n)[i] ∈ patronesDe n := List.getElem_mem hip
  obtain ⟨_, hv, _, _, hhead, _⟩ := hpat _ hmem
  obtain ⟨hsort, hlast⟩ := patrones_orden n (rango n h1 h10) _ hmem
  generalize (patronesDe n)[i] = c at hci hv hhead hsort hlast
  have hlex := arreglosDe_lex c.electrones.length (c.electrones.count 0)
    (c.electrones.count 1) (c.electrones.count 2)
  refine ⟨c, recorridoRef c, hci, by rw [recorridos_ref n i (by rw [hp]; exact hi), hci]; rfl,
    hsort, ?_, ?_, ?_, ?_⟩
  · intro l hperm
    have hvl : ∀ x ∈ l, x = 0 ∨ x = 1 ∨ x = 2 := fun x hx => hv x (hperm.subset hx)
    have hl := arreglosDe_of l hvl
    rw [hperm.length_eq, hperm.count_eq, hperm.count_eq, hperm.count_eq] at hl
    obtain ⟨es, hes⟩ : ∃ es, arreglos c.electrones = c.electrones :: es := by
      cases h : arreglos c.electrones with
      | nil => simp [h] at hhead
      | cons a es => simp [h] at hhead; exact ⟨es, by rw [hhead]⟩
    change l ∈ arreglos c.electrones at hl
    change (arreglos c.electrones).Pairwise _ at hlex
    rw [hes] at hl hlex
    rcases List.mem_cons.mp hl with h | h
    · exact Or.inl h
    · exact Or.inr ((List.pairwise_cons.mp hlex).1 l h)
  · rw [recorridoRef_electrones]
    exact hlex
  · rw [recorridoRef_electrones]
    exact hhead
  · rw [recorridoRef_electrones]
    refine ⟨c.electrones.reverse, hlast, ?_, List.reverse_perm _⟩
    rw [List.pairwise_reverse]
    exact hsort

/-- The order of the rounds on the patterns of 6 electrons, with fuel 30. -/
theorem C17_orden_witness :
    ∃ g p, GrupoDe 30 6 g ∧ getNumCombinaciones 6 = some p ∧
      ∀ i < p, ∃ c r, patron 6 i = some c ∧ g.recorridos[i]? = some r ∧
        c.electrones.Pairwise (fun a b => a ≤ b) ∧
        (∀ l : List Int, l.Perm c.electrones →
          l = c.electrones ∨ List.Lex (fun a b : Int => a < b) c.electrones l) ∧
        (r.map Visita.electrones).Pairwise (List.Lex (fun a b : Int => a < b)) ∧
        (r.map Visita.electrones).head? = some c.electrones ∧
        ∃ u, (r.map Visita.electrones).getLast? = some u ∧
          u.Pairwise (fun a b => a ≥ b) ∧ u.Perm c.electrones :=
  C17_orden 30 6 (by decide) (by decide) (by decide)

/-! ## `bin` for arrays of any length -/

theorem and_two_pow_ne_zero (n m : Nat) : n &&& 2 ^ m ≠ 0 ↔ n.testBit m = true := by
  constructor
  · intro h
    by_contra hb
    apply h
    apply Nat.eq_of_testBit_eq
    intro i
    rw [Nat.testBit_and, Nat.zero_testBit, Nat.testBit_two_pow]
    by_cases hi : m = i
    · subst hi
      simp [hb]
    · simp [hi]
  · intro hb h
    have := congrArg (fun x => Nat.testBit x m) h
    simp [Nat.testBit_and, hb, Nat.testBit_two_pow_self] at this

/-- The loop of `bin` started at `i = 2 ^ m` and position `pos` stores the bits
`m`, `m - 1`, ..., 0 of `n` into the positions `pos`, ..., `pos + m` and leaves
the other positions as they are. -/
theorem binLoop_spec (n : Nat) :
    ∀ (m fuel pos : Nat) (arr : List (Option Int)), m + 2 ≤ fuel → pos + m + 1 ≤ arr.length →
      ∃ r, binLoop fuel (2 ^ m) n arr pos = some r ∧ r.length = arr.length ∧
        (∀ q : Nat, q < pos ∨ pos + m < q → r[q]? = arr[q]?) ∧
        (∀ j : Nat, j ≤ m →
          r[pos + j]? = some (some (if n.testBit (m - j) = true then (1 : Int) else 0))) := by
  intro m
  induction m with
  | zero =>
    intro fuel pos arr hf hp
    obtain ⟨f, rfl⟩ : ∃ f, fuel = f + 2 := ⟨fuel - 2, by omega⟩
    have hpos : pos < arr.length := by omega
    refine ⟨arr.set pos (some (if n.testBit 0 = true then (1 : Int) else 0)), ?_, by simp, ?_, ?_⟩
    · have hv : (if n &&& 2 ^ 0 ≠ 0 then (1 : Int) else 0)
          = if n.testBit 0 = true then (1 : Int) else 0 := by
        by_cases h : n.testBit 0 = true
        · rw [if_pos ((and_two_pow_ne_zero n 0).mpr h), if_pos h]
        · rw [if_neg (fun x => h ((and_two_pow_ne_zero n 0).mp x)), if_neg h]
      have hi : 0 < 2 ^ 0 := Nat.two_pow_pos 0
      have hdiv : 2 ^ 0 / 2 = 0 := by decide
      rw [binLoop]
      simp only [gt_iff_lt, hi, if_true, hpos, hdiv, hv]
      rw [binLoop]
      simp only [gt_iff_lt, Nat.lt_irrefl, if_false]
    · intro q hq
      exact List.getElem?_set_ne (by omega)
    · intro j hj
      have : j = 0 := by omega
      subst this
      rw [Nat.add_zero, List.getElem?_set_self hpos]
  | succ m ih =>
    intro fuel pos arr hf hp
    obtain ⟨f, rfl⟩ : ∃ f, fuel = f + 1 := ⟨fuel - 1, by omega⟩
    have hpos : pos < arr.length := by omega
    have hi : 0 < 2 ^ (m + 1) := Nat.two_pow_pos _
    have hdiv : 2 ^ (m + 1) / 2 = 2 ^ m := by
      rw [Nat.pow_succ, Nat.mul_div_cancel _ (by decide : 0 < 2)]
    have hv : (if n &&& 2 ^ (m + 1) ≠ 0 then (1 : Int) else 0)
        = if n.testBit (m + 1) = true then (1 : Int) else 0 := by
      by_cases h : n.testBit (m + 1) = true
      · rw [if_pos ((and_two_pow_ne_zero n (m + 1)).mpr h), if_pos h]
      · rw [if_neg (fun x => h ((and_two_pow_ne_zero n (m + 1)).mp x)), if_neg h]
    obtain ⟨r, hr, hl, hout, hin⟩ := ih f (pos + 1)
      (arr.set pos (some (if n.testBit (m + 1) = true then (1 : Int) else 0)))
      (by omega) (by simp; omega)
    refine ⟨r, ?_, by simpa using hl, ?_, ?_⟩
    · rw [binLoop]
      simp only [gt_iff_lt, hi, if_true, hpos, hdiv, hv]
      exact hr
    · intro q hq
      rw [hout q (by omega)]
      exact List.getElem?_set_ne (by omega)
    · intro j hj
      cases j with
      | zero =>
        rw [Nat.add_zero, hout pos (by omega), List.getElem?_set_self hpos, Nat.sub_zero]
      | succ j =>
        have := hin j (by omega)
        rw [show pos + (j + 1) = pos + 1 + j by omega, this]
        rw [show m + 1 - (j + 1) = m - j by omega]

theorem lt_two_pow_self' (k : Nat) : k + 1 ≤ 2 ^ k := Nat.lt_two_pow k

/-- The function `bin` on an array of at least `ones` slots, for `ones` from 1
to 31: the result, its written positions and its other positions. -/
theorem bin_spec (n ones : Nat) (arr : List (Option Int)) (h1 : 1 ≤ ones) (h31 : ones ≤ 31)
    (hlen : ones ≤ arr.length) :
    ∃ r, bin n arr ones = some r ∧ r.length = arr.length ∧
      (∀ p : Nat, ones ≤ p → r[p]? = arr[p]?) ∧
      (∀ p : Nat, p < ones →
        r[p]? = some (some (if n.testBit (ones - 1 - p) = true then (1 : Int) else 0))) := by
  obtain ⟨r, hr, hl, hout, hin⟩ := binLoop_spec n (ones - 1) (2 ^ (ones - 1) + 1) 0 arr
    (by have := lt_two_pow_self' (ones - 1); omega) (by omega)
  refine ⟨r, ?_, hl, fun p hp => hout p (Or.inr (by omega)), ?_⟩
  · have hc : ¬ (ones = 0 ∨ INT_BITS < ones) := by
      simp only [INT_BITS]
      omega
    have hc' : ¬ ones = INT_BITS := by
      simp only [INT_BITS]
      omega
    simp only [bin, hc, hc', if_false, Nat.one_shiftLeft]
    exact hr
  · intro p hp
    have := hin p (by omega)
    rw [Nat.zero_add] at this
    exact this

/-- The bits of a number below `2 ^ w`, weighted most significant first, sum
to the number. -/
theorem suma_bits : ∀ (w n : Nat), n < 2 ^ w →
    ((List.range w).map (fun p => (n.testBit (w - 1 - p)).toNat * 2 ^ (w - 1 - p))).sum = n := by
  intro w
  induction w with
  | zero => intro n hn; simp at hn; simp [hn]
  | succ w ih =>
    intro n hn
    rw [List.range_succ_eq_map, List.map_cons, List.sum_cons, List.map_map]
    have hmod : n % 2 ^ w < 2 ^ w := Nat.mod_lt _ (Nat.two_pow_pos w)
    have htail : (List.range w).map
        ((fun p => (n.testBit (w + 1 - 1 - p)).toNat * 2 ^ (w + 1 - 1 - p)) ∘ Nat.succ)
        = (List.range w).map
          (fun p => ((n % 2 ^ w).testBit (w - 1 - p)).toNat * 2 ^ (w - 1 - p)) := by
      apply List.map_congr_left
      intro p hp
      have hpw : p < w := List.mem_range.mp hp
      simp only [Function.comp, Nat.succ_eq_add_one]
      rw [show w + 1 - 1 - (p + 1) = w - 1 - p by omega, Nat.testBit_mod_two_pow]
      simp [show w - 1 - p < w by omega]
    rw [htail, ih _ hmod]
    simp only [Nat.add_sub_cancel, Nat.sub_zero]
    rw [Nat.toNat_testBit]
    have hq : n / 2 ^ w < 2 := by
      rw [Nat.div_lt_iff_lt_mul (Nat.two_pow_pos w)]
      rw [Nat.pow_succ] at hn
      omega
    rw [Nat.mod_eq_of_lt hq]
    have := Nat.div_add_mod n (2 ^ w)
    rw [Nat.mul_comm] at this
    exact this

/-- C18 (amended: `ones` at most 31, the array at least `ones` slots long).
For every `ones` from 1 to 31 and every `n` below `2 ^ ones`,
`bin(n, arrOnes, ones)` stores into exactly the positions `0 .. ones-1` of
`arrOnes`, each time 0 or 1, and the values stored are the binary digits of `n`
most significant first: position `p` holds 1 exactly when bit `ones-1-p` of `n`
is set, and the sum over `p` of `arrOnes[p] * 2 ^ (ones-1-p)` is `n`; hence
two codes below `2 ^ ones` that give the same stored values are equal. -/
theorem C18_bin (ones n : Nat) (arrOnes : List (Option Int)) (h1 : 1 ≤ ones) (h31 : ones ≤ 31)
    (hn : n < 2 ^ ones) (hlen : ones ≤ arrOnes.length) :
    ∃ r, bin n arrOnes ones = some r ∧ r.length = arrOnes.length ∧
      (∀ p : Nat, ones ≤ p → r[p]? = arrOnes[p]?) ∧
      (∀ p : Nat, p < ones → r[p]? = some (some 0) ∨ r[p]? = some (some 1)) ∧
      (∀ p : Nat, p < ones → (r[p]? = some (some 1) ↔ n.testBit (ones - 1 - p) = true)) ∧
      ((List.range ones).map
        (fun p => (r.getD p none).getD 0 * 2 ^ (ones - 1 - p))).sum = (n : Int) ∧
      (∀ (n' : Nat) (r' : List (Option Int)), n' < 2 ^ ones → bin n' arrOnes ones = some r' →
        (∀ p : Nat, p < ones → r'[p]? = r[p]?) → n' = n) := by
  obtain ⟨r, hr, hl, hout, hin⟩ := bin_spec n ones arrOnes h1 h31 hlen
  refine ⟨r, hr, hl, hout, ?_, ?_, ?_, ?_⟩
  · intro p hp
    rw [hin p hp]
    by_cases h : n.testBit (ones - 1 - p) = true
    · right; rw [if_pos h]
    · left; rw [if_neg h]
  · intro p hp
    rw [hin p hp]
    by_cases h : n.testBit (ones - 1 - p) = true
    · simp [h]
    · simp [h]
  · have hs := suma_bits ones n hn
    have hmap : (List.range ones).map (fun p => (r.getD p none).getD 0 * 2 ^ (ones - 1 - p))
        = (List.range ones).map
          (fun p => (((n.testBit (ones - 1 - p)).toNat * 2 ^ (ones - 1 - p) : Nat) : Int)) := by
      apply List.map_congr_left
      intro p hp
      have := hin p (List.mem_range.mp hp)
      rw [List.getD_eq_getElem?_getD, this]
      by_cases h : n.testBit (ones - 1 - p) = true
      · simp [h]
      · simp [h]
    rw [hmap]
    have hcast : ((List.range ones).map
        (fun p => (((n.testBit (ones - 1 - p)).toNat * 2 ^ (ones - 1 - p) : Nat) : Int))).sum
        = (((List.range ones).map
          (fun p => (n.testBit (ones - 1 - p)).toNat * 2 ^ (ones - 1 - p))).sum : Nat) := by
      rw [Nat.cast_list_sum, List.map_map]
      rfl
    rw [hcast, hs]
  · intro n' r' hn' hr' heq
    obtain ⟨r2, hr2, _, _, hin2⟩ := bin_spec n' ones arrOnes h1 h31 hlen
    rw [hr'] at hr2
    cases hr2
    apply Nat.eq_of_testBit_eq
    intro i
    by_cases hi : i < ones
    · have a := hin (ones - 1 - i) (by omega)
      have b := hin2 (ones - 1 - i) (by omega)
      rw [heq _ (by omega), a] at b
      rw [show ones - 1 - (ones - 1 - i) = i by omega] at b
      have b' := Option.some.inj (Option.some.inj b)
      by_cases h : n.testBit i = true <;> by_cases h' : n'.testBit i = true
      · rw [h, h']
      · rw [if_pos h, if_neg h'] at b'
        exact absurd b' (by decide)
      · rw [if_neg h, if_pos h'] at b'
        exact absurd b' (by decide)
      · rw [Bool.not_eq_true] at h h'
        rw [h, h']
    · have hle : 2 ^ ones ≤ 2 ^ i := Nat.pow_le_pow_right (by decide) (by omega)
      rw [Nat.testBit_lt_two_pow (by omega), Nat.testBit_lt_two_pow (by omega)]

/-- The source's example: 6 in 3 slots is 1, 1, 0. -/
theorem C18_bin_witness :
    (∃ r, bin 6 [none, none, none] 3 = some r ∧ r.length = 3 ∧
      (∀ p : Nat, 3 ≤ p → r[p]? = [none, none, none][p]?) ∧
      (∀ p : Nat, p < 3 → r[p]? = some (some 0) ∨ r[p]? = some (some 1)) ∧
      (∀ p : Nat, p < 3 → (r[p]? = some (some 1) ↔ Nat.testBit 6 (3 - 1 - p) = true)) ∧
      ((List.range 3).map
        (fun p => (r.getD p none).getD 0 * 2 ^ (3 - 1 - p))).sum = ((6 : Nat) : Int) ∧
      (∀ (n' : Nat) (r' : List (Option Int)), n' < 2 ^ 3 → bin n' [none, none, none] 3 = some r' →
        (∀ p : Nat, p < 3 → r'[p]? = r[p]?) → n' = 6)) ∧
    bin 6 [none, none, none] 3 = some [some 1, some 1, some 0] :=
  ⟨C18_bin 3 6 [none, none, none] (by decide) (by decide) (by decide) (by decide), by decide⟩

/-- C18 as stated fails at `ones = 32`, `n = 1`: `1 << 31` is not a positive
`int`, the loop of `bin` does not run, and the 32 slots stay indeterminate. -/
theorem C18_contraejemplo :
    1 ≤ 32 ∧ 1 < 2 ^ 32 ∧
    bin 1 (List.replicate 32 none) 32 = some (List.replicate 32 none) ∧
    ¬ ∃ r, bin 1 (List.replicate 32 none) 32 = some r ∧
      (∀ p : Nat, p < 32 → r[p]? = some (some 0) ∨ r[p]? = some (some 1)) :=
  ⟨by decide, by decide, by decide, by
    rintro ⟨r, hr, h⟩
    have h0 : bin 1 (List.replicate 32 none) 32 = some (List.replicate 32 none) := by decide
    rw [h0] at hr
    cases hr
    have := h 0 (by decide)
    simp at this⟩

/-! ## Symmetries of the set of lines -/

theorem codigosRef_iff (k : Nat) (arr : List (Option Int)) :
    arr ∈ codigosRef k ↔ arr.length = k ∧ ∀ b ∈ arr, b = some 0 ∨ b = some 1 := by
  constructor
  · intro h
    exact ⟨(codigosRef_mem k arr h).1, codigosRef_bits k arr h⟩
  · rintro ⟨hl, hb⟩
    have a := arr_de_signos arr hb
    have s := codigosRef_of_signos (arr.map (fun b => decide (b = some 1)))
    rw [← a, List.length_map, hl] at s
    exact s

/-- The lines of the group `grupoRef n` are the lines of the occupations of `n`
electrons and the sign arrays for their entries 1. -/
theorem mem_lineas (n : Nat) (h1 : 1 ≤ n) (h10 : n ≤ 10) (m : Microestado) :
    m ∈ (grupoRef n).lineas ↔
      ∃ e arr, m = lineaRef e arr ∧ Valida n e ∧ arr ∈ codigosRef (e.count 1) := by
  constructor
  · intro hm
    obtain ⟨e, arr, rfl, a, b, s, harr, _⟩ := lineas_forma n h1 h10 m hm
    exact ⟨e, arr, rfl, ⟨a, b, s⟩, harr⟩
  · rintro ⟨e, arr, rfl, ⟨a, b, s⟩, harr⟩
    obtain ⟨c, hc, hones, hmem, _⟩ := patron_de n e a b s h1 h10
    rw [lineas_ref]
    exact ⟨c, hc, e, hmem, arr, by rw [hones, Option.getD_some]; exact harr, rfl⟩

/-- A map of occupations and a map of sign arrays that are their own inverses
and send the lines of `n` electrons to lines of `n'` electrons and back
rearrange the lines of `n` into the lines of `n'`. -/
theorem simetria_lineas (n n' : Nat) (h1 : 1 ≤ n) (h10 : n ≤ 10) (h1' : 1 ≤ n') (h10' : n' ≤ 10)
    (Te : List Int → List Int) (Ta : List (Option Int) → List (Option Int))
    (hTe : ∀ e, Valida n e → Valida n' (Te e) ∧ (Te e).count 1 = e.count 1)
    (hTe' : ∀ e, Valida n' e → Valida n (Te e) ∧ (Te e).count 1 = e.count 1)
    (hinv : ∀ e, Te (Te e) = e)
    (hTa : ∀ k arr, arr ∈ codigosRef k → Ta arr ∈ codigosRef k ∧ Ta (Ta arr) = arr) :
    ((grupoRef n).lineas.map (fun m => lineaRef (Te m.electrones) (Ta m.arrOnes))).Perm
      (grupoRef n').lineas := by
  refine (List.perm_ext_iff_of_nodup ((lineas_nodup n h1 h10).map_on ?_)
    (lineas_nodup n' h1' h10')).mpr ?_
  · intro x hx y hy h
    obtain ⟨e, arr, rfl, _, harr⟩ := (mem_lineas n h1 h10 x).mp hx
    obtain ⟨e', arr', rfl, _, harr'⟩ := (mem_lineas n h1 h10 y).mp hy
    have he : Te e = Te e' := congrArg Microestado.electrones h
    have ha : Ta arr = Ta arr' := congrArg Microestado.arrOnes h
    have he' : e = e' := by rw [← hinv e, he, hinv e']
    have ha' : arr = arr' := by
      rw [← (hTa _ arr harr).2, show Ta arr = Ta arr' from ha, (hTa _ arr' harr').2]
    rw [he', ha']
  · intro y
    rw [List.mem_map]
    constructor
    · rintro ⟨x, hx, rfl⟩
      obtain ⟨e, arr, rfl, hv, harr⟩ := (mem_lineas n h1 h10 x).mp hx
      rw [mem_lineas n' h1' h10']
      exact ⟨Te e, Ta arr, rfl, (hTe e hv).1, by rw [(hTe e hv).2]; exact (hTa _ arr harr).1⟩
    · intro hy
      obtain ⟨e, arr, rfl, hv, harr⟩ := (mem_lineas n' h1' h10' y).mp hy
      refine ⟨lineaRef (Te e) (Ta arr), ?_, ?_⟩
      · rw [mem_lineas n h1 h10]
        exact ⟨Te e, Ta arr, rfl, (hTe' e hv).1, by rw [(hTe' e hv).2]; exact (hTa _ arr harr).1⟩
      · show lineaRef (Te (Te e)) (Ta (Ta arr)) = lineaRef e arr
        rw [hinv e, (hTa _ arr harr).2]

theorem hueco_valida (n : Nat) (hn : n ≤ 10) (e : List Int) (h : Valida n e) :
    Valida (10 - n) (hueco e) ∧ (hueco e).count 1 = e.count 1 := by
  obtain ⟨hl, hv, hs⟩ := h
  match e, hl with
  | [a, b, c, d, f], _ =>
    have ha := hv a (by simp)
    have hb := hv b (by simp)
    have hc := hv c (by simp)
    have hd := hv d (by simp)
    have hf := hv f (by simp)
    simp only [List.sum_cons, List.sum_nil] at hs
    refine ⟨⟨rfl, ?_, ?_⟩, ?_⟩
    · intro x hx
      simp only [hueco, List.map_cons, List.map_nil, List.mem_cons, List.mem_singleton,
        List.not_mem_nil, or_false] at hx
      rcases hx with rfl | rfl | rfl | rfl | rfl <;> omega
    · simp only [hueco, List.map_cons, List.map_nil, List.sum_cons, List.sum_nil]
      omega
    · simp only [hueco, List.map_cons, List.map_nil, List.count_cons, List.count_nil,
        beq_iff_eq]
      have e1 : ∀ x : Int, (2 - x = 1) ↔ (x = 1) := fun x => by omega
      simp only [e1]

theorem hueco_hueco (e : List Int) : hueco (hueco e) = e := by
  simp [hueco, Function.comp_def]

theorem mlRef_hueco (e : List Int) (hl : e.length = 5) : mlRef (hueco e) = - mlRef e := by
  match e, hl with
  | [a, b, c, d, f], _ =>
    simp only [mlRef, hueco, ORBITALES_D, List.map_cons, List.map_nil, List.zipWith_cons_cons,
      List.zipWith_nil_left, List.sum_cons, List.sum_nil]
    omega

theorem mlRef_reverse (e : List Int) (hl : e.length = 5) : mlRef e.reverse = - mlRef e := by
  match e, hl with
  | [a, b, c, d, f], _ =>
    simp only [mlRef, ORBITALES_D, List.reverse_cons, List.reverse_nil, List.nil_append,
      List.cons_append, List.zipWith_cons_cons, List.zipWith_nil_left, List.sum_cons,
      List.sum_nil]
    omega

theorem reverse_valida (n : Nat) (e : List Int) (h : Valida n e) :
    Valida n e.reverse ∧ e.reverse.count 1 = e.count 1 := by
  obtain ⟨hl, hv, hs⟩ := h
  exact ⟨⟨by rw [List.length_reverse, hl], fun x hx => hv x (List.mem_reverse.mp hx),
    by rw [List.sum_reverse, hs]⟩, List.count_reverse _ _⟩

theorem msRef_reverse (arr : List (Option Int)) : msRef arr.reverse = msRef arr := by
  simp only [msRef, List.map_reverse, List.sum_reverse]

theorem msRef_voltear : ∀ (arr : List (Option Int)), msRef (voltear arr) = - msRef arr := by
  intro arr
  induction arr with
  | nil => rfl
  | cons b t ih =>
    have hc : ∀ (x : Option Int) (l : List (Option Int)),
        msRef (x :: l) = (if x = some 1 then (1 : Int) else -1) + msRef l := by
      intro x l
      simp [msRef]
    have hv : voltear (b :: t) = (if b = some 1 then some 0 else some 1) :: voltear t := rfl
    rw [hv, hc, hc, ih]
    by_cases h : b = some 1
    · simp [h]
      omega
    · simp [h]
      omega

theorem reverse_codigos (k : Nat) (arr : List (Option Int)) (h : arr ∈ codigosRef k) :
    arr.reverse ∈ codigosRef k ∧ arr.reverse.reverse = arr := by
  rw [codigosRef_iff] at h ⊢
  exact ⟨⟨by rw [List.length_reverse, h.1], fun b hb => h.2 b (List.mem_reverse.mp hb)⟩,
    List.reverse_reverse _⟩

theorem voltear_codigos (k : Nat) (arr : List (Option Int)) (h : arr ∈ codigosRef k) :
    voltear arr ∈ codigosRef k ∧ voltear (voltear arr) = arr := by
  rw [codigosRef_iff] at h ⊢
  obtain ⟨hl, hb⟩ := h
  refine ⟨⟨by rw [voltear, List.length_map, hl], ?_⟩, ?_⟩
  · intro b hbm
    obtain ⟨x, _, rfl⟩ := List.mem_map.mp hbm
    split
    · left; rfl
    · right; rfl
  · rw [voltear, voltear, List.map_map]
    conv_rhs => rw [← List.map_id arr]
    apply List.map_congr_left
    intro b hbm
    rcases hb b hbm with rfl | rfl <;> simp

theorem id_codigos (k : Nat) (arr : List (Option Int)) (h : arr ∈ codigosRef k) :
    id arr ∈ codigosRef k ∧ id (id arr) = arr :=
  ⟨h, rfl⟩

/-- C20. Electron-hole symmetry: for every `n` from 1 to 9 the pairs
(`ML`, `MS`) of the lines that `run` writes for `n` electrons are, as a
multiset, the pairs of the lines it writes for `10 - n` electrons, and this
multiset does not change when both `ML` and `MS` are negated. -/
theorem C20_simetria (fuel n : Nat) (hf : 30 ≤ fuel) (h1 : 1 ≤ n) (h9 : n ≤ 9) :
    ∃ g g', GrupoDe fuel n g ∧ GrupoDe fuel (10 - n) g' ∧
      (g.lineas.map (fun m => (m.ML, m.MS))).Perm (g'.lineas.map (fun m => (m.ML, m.MS))) ∧
      (g.lineas.map (fun m => (m.ML, m.MS))).Perm
        (g.lineas.map (fun m => (-m.ML, -m.MS))) := by
  have h10 : n ≤ 10 := by omega
  have h1' : 1 ≤ 10 - n := by omega
  have h10' : 10 - n ≤ 10 := by omega
  refine ⟨grupoRef n, grupoRef (10 - n), grupoDe_ref fuel n hf h1 h10,
    grupoDe_ref fuel (10 - n) hf h1' h10', ?_, ?_⟩
  · have hh := simetria_lineas n (10 - n) h1 h10 h1' h10' hueco id
      (hueco_valida n h10)
      (fun e he => by
        have := hueco_valida (10 - n) h10' e he
        rw [show 10 - (10 - n) = n by omega] at this
        exact this)
      hueco_hueco id_codigos
    have hr := simetria_lineas n n h1 h10 h1 h10 List.reverse List.reverse
      (reverse_valida n) (reverse_valida n) List.reverse_reverse reverse_codigos
    have a := hh.map (fun m => (m.ML, m.MS))
    have b := hr.map (fun m => (m.ML, m.MS))
    rw [List.map_map] at a b
    have hab : (grupoRef n).lineas.map
        ((fun m => (m.ML, m.MS)) ∘ fun m => lineaRef (hueco m.electrones) (id m.arrOnes))
        = (grupoRef n).lineas.map
          ((fun m => (m.ML, m.MS)) ∘ fun m => lineaRef m.electrones.reverse m.arrOnes.reverse) := by
      apply List.map_congr_left
      intro m hm
      obtain ⟨e, arr, rfl, ⟨hl, _, _⟩, _⟩ := (mem_lineas n h1 h10 m).mp hm
      show (mlRef (hueco e), msRef (id arr)) = (mlRef e.reverse, msRef arr.reverse)
      rw [mlRef_hueco e hl, mlRef_reverse e hl, msRef_reverse]
      rfl
    rw [hab] at a
    exact b.symm.trans a
  · have hv := simetria_lineas n n h1 h10 h1 h10 List.reverse voltear
      (reverse_valida n) (reverse_valida n) List.reverse_reverse voltear_codigos
    have a := hv.map (fun m => (m.ML, m.MS))
    rw [List.map_map] at a
    have hab : (grupoRef n).lineas.map
        ((fun m => (m.ML, m.MS)) ∘ fun m => lineaRef m.electrones.reverse (voltear m.arrOnes))
        = (grupoRef n).lineas.map (fun m => (-m.ML, -m.MS)) := by
      apply List.map_congr_left
      intro m hm
      obtain ⟨e, arr, rfl, ⟨hl, _, _⟩, _⟩ := (mem_lineas n h1 h10 m).mp hm
      show (mlRef e.reverse, msRef (voltear arr)) = (- mlRef e, - msRef arr)
      rw [mlRef_reverse e hl, msRef_voltear]
    rw [hab] at a
    exact a.symm

/-- The pairs of 3 and of 7 electrons, with fuel 30. -/
theorem C20_simetria_witness :
    ∃ g g', GrupoDe 30 3 g ∧ GrupoDe 30 (10 - 3) g' ∧
      (g.lineas.map (fun m => (m.ML, m.MS))).Perm (g'.lineas.map (fun m => (m.ML, m.MS))) ∧
      (g.lineas.map (fun m => (m.ML, m.MS))).Perm
        (g.lineas.map (fun m => (-m.ML, -m.MS))) :=
  C20_simetria 30 3 (by decide) (by decide) (by decide)

end Microestados
